import Mathlib

/-!
# OrnBackup: the backup / restore engine of Storeman

A shallow embedding of `src/ornbackup.cpp`.  The engine is a Qt object whose
slots are run by the event loop; here every slot is a function on an explicit
`World` (the engine's members together with the collaborators it touches), the
signals it emits are appended to a log, and the `connect` calls are recorded in
the transaction that they configure.

Collaborators that live in other translation units (`OrnUtils`, `OrnPm`,
`OrnPackageVersion`, `QFileInfo`) are the fields of `Env`; the theorems hold for
every such environment, and `stdEnv` is one concrete instance used to evaluate
the definitions.
-/

namespace OrnBackup

/-! ## Data model -/

/-- The `OrnBackup::Status` enumeration. -/
inductive Status where
  | Idle
  | BackingUp
  | RestoringBookmarks
  | RestoringRepos
  | RefreshingRepos
  | SearchingPackages
  | InstallingPackages
  deriving DecidableEq, Repr

/-- The `OrnBackup::BackupError` enumeration. -/
inductive BackupError where
  | DirectoryError
  deriving DecidableEq, Repr

/-- The signals of `OrnBackup`. -/
inductive Signal where
  | statusChanged
  | backupError (e : BackupError)
  | backedUp
  | restored
  deriving DecidableEq, Repr

/-- The `BackupItems` flag set: one bit per capture category. -/
structure BackupItems where
  BackupRepos : Bool
  BackupInstalled : Bool
  BackupBookmarks : Bool
  deriving DecidableEq, Repr

/-- The test `int(items) > 0`: some bit is set. -/
def BackupItems.nonEmpty (items : BackupItems) : Bool :=
  items.BackupRepos || items.BackupInstalled || items.BackupBookmarks

/-- The values a snapshot file stores (`QVariant`). -/
inductive QVariant where
  | invalid
  | strings (l : List String)
  | uints (l : List Nat)
  | time (t : Nat)
  deriving DecidableEq, Repr

/-- The conversion `QVariant::toUInt` of a string: `0` when it is no 32-bit number. -/
def strToUInt (s : String) : Nat :=
  match s.toNat? with
  | some n => if n < 2 ^ 32 then n else 0
  | none => 0

/-- The conversion `QVariant::toStringList`. -/
def QVariant.toStringList : QVariant → List String
  | .strings l => l
  | .uints l => l.map toString
  | _ => []

/-- The conversion `QVariant::toList` followed by `toUInt` on every element. -/
def QVariant.toUIntList : QVariant → List Nat
  | .uints l => l
  | .strings l => l.map strToUInt
  | _ => []

/-- A key of the snapshot file: the group opened by `beginGroup` and the key inside it. -/
abbrev SettingsKey := String × String

/-- The contents of a `QSettings` file in INI format. -/
structure QSettings where
  entries : List (SettingsKey × QVariant)
  deriving DecidableEq, Repr

/-- The call `QSettings::value`: an invalid variant for an absent key. -/
def QSettings.value (f : QSettings) (k : SettingsKey) : QVariant :=
  match f.entries.find? (fun e => decide (e.1 = k)) with
  | some e => e.2
  | none => .invalid

/-- The call `QSettings::setValue`: the key's earlier value is replaced. -/
def QSettings.setValue (f : QSettings) (k : SettingsKey) (v : QVariant) : QSettings :=
  ⟨(k, v) :: f.entries.filter (fun e => decide (e.1 ≠ k))⟩

def GROUP_REPOS : String := "repos"

def GROUP_PACKAGES : String := "packages"

def KEY_ALL : String := "all"

def KEY_DISABLED : String := "disabled"

/-- Modelled from the spec: the constant `OrnConst::installed` of `ornconst.h`, the key
`installed` of the `packages` section and the name of the pseudo-repository of installed
packages. -/
def OrnConst.installed : String := "installed"

/-- Modelled from the spec: the constant `OrnConst::bookmarks` of `ornconst.h`, the key
`bookmarks` of the `packages` section. -/
def OrnConst.bookmarks : String := "bookmarks"

/-- Modelled from the spec: the constant `OrnConst::created` of `ornconst.h`, the root key
`created`. -/
def OrnConst.created : String := "created"

/-- The operations a package transaction offers. -/
inductive Op where
  | refreshCache
  | resolve (names : List String)
  | installPackages (ids : List String)
  deriving DecidableEq, Repr

/-- The slots of `OrnBackup` that are connected to `OrnPkTransaction::Finished`. -/
inductive Slot where
  | pSearchPackages
  | pInstallPackages
  | pFinishRestore
  deriving DecidableEq, Repr

/-- A transaction obtained from `OrnPm` together with the connections made on it:
`onPackage` says that `Package` is connected to `pAddPackage`, `onFinished` names the slot
connected to `Finished`. -/
structure Transaction where
  op : Op
  onPackage : Bool
  onFinished : Slot
  deriving DecidableEq, Repr

/-- A job handed to `QtConcurrent::run`. -/
inductive Job where
  | pBackup (filePath : String) (items : BackupItems)
  | pRestore (filePath : String)
  deriving DecidableEq, Repr

/-- A record of `OrnPmPrivate::prepareInstalledPackages`. -/
structure InstalledPackage where
  name : String
  title : String
  deriving DecidableEq, Repr

/-- The members of the engine and the state of its collaborators.

* `mPackagesToInstall` is the multi-hash of candidates: `insert` puts the new pair in
  front, so that the values of one key are listed from the most recently inserted to the
  least recently inserted, as `QMultiHash::values` does.
* `mInstalled` is a hash with one value per key.
* `repos` is `OrnPmPrivate::repos`, `ssuCalls` the calls of `addRepo` in order.
* `signals` logs every emitted signal together with `mStatus` at the time of emission.
* `jobs` are the background jobs that were started and have not run yet, `pending` the
  open transactions, `opened` every operation requested from a transaction so far. -/
structure World where
  mStatus : Status
  mNamesToSearch : List String
  mPackagesToInstall : List (String × String)
  mInstalled : List (String × String)
  repos : List (String × Bool)
  ssuCalls : List (String × String)
  bookmarks : List Nat
  installedPackages : List InstalledPackage
  files : List (String × QSettings)
  dirs : List String
  creatable : List String
  clock : Nat
  signals : List (Signal × Status)
  jobs : List Job
  pending : List Transaction
  opened : List Op
  deriving DecidableEq, Repr

/-- The collaborators declared outside `ornbackup.cpp`, for a representation `V` of
`OrnPackageVersion`. -/
structure Env (V : Type) where
  /-- The declaration `OrnPm::repoNamePrefix`. -/
  repoNamePrefix : String
  /-- The declaration `OrnPm::repoUrl`. -/
  repoUrl : String → String
  /-- The declaration `OrnUtils::packageName`. -/
  packageName : String → String
  /-- The declaration `OrnUtils::packageRepo`. -/
  packageRepo : String → String
  /-- The declaration `OrnUtils::packageVersion`. -/
  packageVersion : String → String
  /-- The declaration `OrnPackageVersion(const QString &)`. -/
  parseVersion : String → V
  /-- The declaration `OrnPackageVersion()`. -/
  defaultVersion : V
  /-- The declaration `OrnPackageVersion::operator<`. -/
  versionLt : V → V → Bool
  /-- The declaration `QFileInfo(filePath).dir()`. -/
  parentDir : String → String

/-! ## Containers -/

/-- The test `QString::startsWith`. -/
def startsWith (s p : String) : Bool :=
  p.data.isPrefixOf s.data

/-- The call `QString::mid(n)`: what follows the first `n` characters. -/
def mid (s : String) (n : Nat) : String :=
  String.mk (s.data.drop n)

/-- The call `QMultiHash::insert`. -/
def multiInsert (k v : String) (m : List (String × String)) : List (String × String) :=
  (k, v) :: m

/-- The call `QMultiHash::uniqueKeys`. -/
def uniqueKeys (m : List (String × String)) : List String :=
  (m.map Prod.fst).dedup

/-- The call `QMultiHash::values(key)`, most recently inserted first. -/
def valuesOf (m : List (String × String)) (k : String) : List String :=
  (m.filter (fun e => decide (e.1 = k))).map Prod.snd

/-- The call `QHash::insert`: the value of an existing key is replaced. -/
def hashInsert {β : Type} (k : String) (v : β) : List (String × β) → List (String × β)
  | [] => [(k, v)]
  | e :: m => if e.1 = k then (k, v) :: m else e :: hashInsert k v m

/-- The lookup in a hash: `none` stands for `!contains(key)`. -/
def hashFind {β : Type} (k : String) : List (String × β) → Option β
  | [] => none
  | e :: m => if e.1 = k then some e.2 else hashFind k m

/-- The call `QSet::insert`. -/
def setInsert (b : Nat) (s : List Nat) : List Nat :=
  if b ∈ s then s else s ++ [b]

/-! ## Files -/

/-- The test `QFileInfo(path).isFile()`. -/
def isFile (w : World) (path : String) : Bool :=
  (hashFind path w.files).isSome

/-- Opening `QSettings file(path, IniFormat)`: the stored contents, empty for a new file. -/
def openSettings (w : World) (path : String) : QSettings :=
  (hashFind path w.files).getD ⟨[]⟩

/-- Writing a `QSettings` object back when it goes out of scope; a file cannot be
written into a directory that does not exist. -/
def syncSettings {V : Type} (d : Env V) (path : String) (f : QSettings) (w : World) : World :=
  if d.parentDir path ∈ w.dirs then { w with files := hashInsert path f w.files } else w

/-! ## Signals and status -/

/-- The statement `emit sig`. -/
def emit (sig : Signal) (w : World) : World :=
  { w with signals := w.signals ++ [(sig, w.mStatus)] }

/-- The method `OrnBackup::status`. -/
def status (w : World) : Status :=
  w.mStatus

/-- The method `OrnBackup::setStatus`. -/
def setStatus (s : Status) (w : World) : World :=
  if w.mStatus ≠ s then emit .statusChanged { w with mStatus := s } else w

/-- Taking a fresh transaction from `OrnPm`, connecting its signals and requesting `op`. -/
def openTransaction (op : Op) (onPackage : Bool) (onFinished : Slot) (w : World) : World :=
  { w with pending := w.pending ++ [⟨op, onPackage, onFinished⟩], opened := w.opened ++ [op] }

/-! ## Snapshot inspection -/

/-- The map returned by `details`. -/
structure Details where
  created : Nat
  repos : Nat
  packages : Nat
  bookmarks : Nat
  deriving DecidableEq, Repr

/-- The method `OrnBackup::details`; `none` is the failed assertion that the file exists. -/
def details (w : World) (path : String) : Option Details :=
  if isFile w path then
    let file := openSettings w path
    let repos := (file.value (GROUP_REPOS, KEY_ALL)).toStringList.length
    let packages := (file.value (GROUP_PACKAGES, OrnConst.installed)).toStringList.length
    let bookmarks := (file.value (GROUP_PACKAGES, OrnConst.bookmarks)).toStringList.length
    let created := match file.value ("", OrnConst.created) with
      | .time t => t
      | _ => 0
    some ⟨created, repos, packages, bookmarks⟩
  else none

/-! ## Capture -/

/-- The method `OrnBackup::backup`; `none` is a failed assertion. -/
def backup {V : Type} (d : Env V) (filePath : String) (items : BackupItems) (w : World) :
    Option World :=
  if filePath = "" ∨ isFile w filePath = true ∨ items.nonEmpty = false then none
  else if w.mStatus ≠ .Idle then some w
  else
    let dir := d.parentDir filePath
    let w1 :=
      if dir ∈ w.dirs then w
      else if dir ∈ w.creatable then { w with dirs := w.dirs ++ [dir] }
      else emit (.backupError .DirectoryError) w
    some { w1 with jobs := w1.jobs ++ [.pBackup filePath items] }

/-- The loop of `pBackup` over the registry: the pair of lists `repos` and `disabled`. -/
def collectRepos (prefixSize : Nat) (repos : List (String × Bool)) :
    List String × List String :=
  repos.foldl
    (fun acc it =>
      let author := mid it.1 prefixSize
      (acc.1 ++ [author], if !it.2 then acc.2 ++ [author] else acc.2))
    ([], [])

/-- The method `OrnBackup::pBackup`. -/
def pBackup {V : Type} (d : Env V) (filePath : String) (items : BackupItems) (w : World) :
    World :=
  let w1 := setStatus .BackingUp w
  let file0 := openSettings w1 filePath
  let file1 :=
    if items.BackupRepos then
      let rd := collectRepos d.repoNamePrefix.length w1.repos
      (file0.setValue (GROUP_REPOS, KEY_ALL) (.strings rd.1)).setValue
        (GROUP_REPOS, KEY_DISABLED) (.strings rd.2)
    else file0
  let file2 :=
    if items.BackupInstalled then
      file1.setValue (GROUP_PACKAGES, OrnConst.installed)
        (.strings (w1.installedPackages.map (fun p => p.name)))
    else file1
  let file3 :=
    if items.BackupBookmarks then
      file2.setValue (GROUP_PACKAGES, OrnConst.bookmarks) (.uints w1.bookmarks)
    else file2
  let file4 := file3.setValue ("", OrnConst.created) (.time w1.clock)
  syncSettings d filePath file4 (emit .backedUp (setStatus .Idle w1))

/-! ## Restore: reading the file -/

/-- The method `OrnBackup::restore`; `none` is a failed assertion.  The future watcher connects the
end of the job to `pRefreshRepos`, see `runJob`. -/
def restore (filePath : String) (w : World) : Option World :=
  if filePath = "" ∨ isFile w filePath = false then none
  else if w.mStatus ≠ .Idle then some w
  else some { w with jobs := w.jobs ++ [.pRestore filePath] }

/-- One round of the loop of `pRestore` over the authors. -/
def restoreRepo {V : Type} (d : Env V) (disabled : List String) (w : World) (author : String) :
    World :=
  let repoAlias := d.repoNamePrefix ++ author
  { w with
    ssuCalls := w.ssuCalls ++ [(repoAlias, d.repoUrl author)]
    repos := hashInsert repoAlias (!disabled.contains author) w.repos }

/-- The method `OrnBackup::pRestore`. -/
def pRestore {V : Type} (d : Env V) (filePath : String) (w : World) : World :=
  let file := openSettings w filePath
  let w1 := { w with
    mNamesToSearch := (file.value (GROUP_PACKAGES, OrnConst.installed)).toStringList }
  let bookmarks := (file.value (GROUP_PACKAGES, OrnConst.bookmarks)).toUIntList
  let w2 :=
    if bookmarks ≠ [] then
      let w11 := setStatus .RestoringBookmarks w1
      { w11 with bookmarks := bookmarks.foldl (fun s b => setInsert b s) w11.bookmarks }
    else w1
  let repos := (file.value (GROUP_REPOS, KEY_ALL)).toStringList
  if repos ≠ [] then
    let w3 := setStatus .RestoringRepos w2
    let disabled := (file.value (GROUP_REPOS, KEY_DISABLED)).toStringList
    repos.foldl (restoreRepo d disabled) w3
  else w2

/-! ## Restore: the reconciliation pipeline -/

/-- The method `OrnBackup::pFinishRestore`. -/
def pFinishRestore (w : World) : World :=
  emit .restored (setStatus .Idle w)

/-- The method `OrnBackup::pRefreshRepos`. -/
def pRefreshRepos (w : World) : World :=
  if w.mNamesToSearch ≠ [] then
    openTransaction .refreshCache false .pSearchPackages (setStatus .RefreshingRepos w)
  else pFinishRestore w

/-- The method `OrnBackup::pSearchPackages`. -/
def pSearchPackages (w : World) : World :=
  let w1 := setStatus .SearchingPackages w
  let w2 := { w1 with mPackagesToInstall := [] }
  openTransaction (.resolve w2.mNamesToSearch) true .pInstallPackages w2

/-- The method `OrnBackup::pAddPackage`. -/
def pAddPackage {V : Type} (d : Env V) (packageId : String) (w : World) : World :=
  let name := d.packageName packageId
  if w.mNamesToSearch.contains name then
    let repo := d.packageRepo packageId
    if startsWith repo d.repoNamePrefix then
      { w with mPackagesToInstall := multiInsert name packageId w.mPackagesToInstall }
    else if repo = OrnConst.installed then
      { w with mInstalled := hashInsert name (d.packageVersion packageId) w.mInstalled }
    else w
  else w

/-- One round of the inner loop of `pInstallPackages`, on the pair
`(newestVersion, newestId)`. -/
def newestStep {V : Type} (d : Env V) (acc : V × String) (pid : String) : V × String :=
  let v := d.parseVersion (d.packageVersion pid)
  if d.versionLt acc.1 v then (v, pid) else acc

/-- The inner loop of `pInstallPackages`: it starts from a default version and an empty
identifier. -/
def newest {V : Type} (d : Env V) (pids : List String) : V × String :=
  pids.foldl (newestStep d) (d.defaultVersion, "")

/-- The test that guards `ids << newestId`. -/
def needsInstall {V : Type} (d : Env V) (w : World) (pname : String) : Bool :=
  match hashFind pname w.mInstalled with
  | none => true
  | some inst => d.versionLt (d.parseVersion inst) (newest d (valuesOf w.mPackagesToInstall pname)).1

/-- What one round of the outer loop of `pInstallPackages` appends to `ids`. -/
def contribution {V : Type} (d : Env V) (w : World) (pname : String) : List String :=
  if needsInstall d w pname then [(newest d (valuesOf w.mPackagesToInstall pname)).2] else []

/-- The outer loop of `pInstallPackages`: the list `ids`. -/
def installIds {V : Type} (d : Env V) (w : World) : List String :=
  (uniqueKeys w.mPackagesToInstall).foldl (fun ids pname => ids ++ contribution d w pname) []

/-- The method `OrnBackup::pInstallPackages`. -/
def pInstallPackages {V : Type} (d : Env V) (w : World) : World :=
  let ids := installIds d w
  if ids = [] then pFinishRestore w
  else openTransaction (.installPackages ids) false .pFinishRestore (setStatus .InstallingPackages w)

/-- The method `OrnBackup::notFound`.  A range-based `for` over a Qt hash visits the stored values,
here the package identifiers. -/
def notFound (w : World) : List String :=
  (w.mPackagesToInstall.map Prod.snd).filter (fun name => !w.mNamesToSearch.contains name)

/-! ## The event loop -/

/-- Calling the slot connected to `Finished`. -/
def callSlot {V : Type} (d : Env V) : Slot → World → World
  | .pSearchPackages, w => pSearchPackages w
  | .pInstallPackages, w => pInstallPackages d w
  | .pFinishRestore, w => pFinishRestore w

/-- The search stage: the `Package` events of one resolution, in order. -/
def addPackages {V : Type} (d : Env V) (ids : List String) (w : World) : World :=
  ids.foldl (fun acc packageId => pAddPackage d packageId acc) w

/-- The oldest open transaction runs to its end: if its `Package` signal is connected the
packages `found` are delivered, then `Finished` is delivered once. -/
def runTransaction {V : Type} (d : Env V) (found : List String) (w : World) : World :=
  match w.pending with
  | [] => w
  | t :: rest =>
    let w1 := if t.onPackage then addPackages d found w else w
    callSlot d t.onFinished { w1 with pending := rest }

/-- A background job runs; the watcher of a restore job then calls `pRefreshRepos`. -/
def runJob {V : Type} (d : Env V) : Job → World → World
  | .pBackup filePath items, w => pBackup d filePath items w
  | .pRestore filePath, w => pRefreshRepos (pRestore d filePath w)

/-- The oldest background job runs. -/
def runNextJob {V : Type} (d : Env V) (w : World) : World :=
  match w.jobs with
  | [] => w
  | j :: rest => runJob d j { w with jobs := rest }

/-- A whole restore: the call of `restore`, its background job, and the at most three
transactions of the pipeline, each of which delivers `Finished` exactly once. -/
def restoreRun {V : Type} (d : Env V) (filePath : String) (found : List String) (w : World) :
    Option World :=
  (restore filePath w).map fun w1 =>
    runTransaction d found (runTransaction d found (runTransaction d found (runNextJob d w1)))

/-- A whole capture: the call of `backup` and its background job. -/
def backupRun {V : Type} (d : Env V) (filePath : String) (items : BackupItems) (w : World) :
    Option World :=
  (backup d filePath items w).map (runNextJob d)

/-! ## A concrete environment -/

/-- Modelled from the spec: the fields of a package identifier, for which `OrnUtils` is
not part of `ornbackup.cpp`; a PackageKit identifier reads `name;version;arch;repo`. -/
def splitFields : List Char → List (List Char)
  | [] => [[]]
  | c :: cs =>
    match splitFields cs with
    | [] => [[c]]
    | f :: fs => if c = ';' then [] :: f :: fs else (c :: f) :: fs

/-- Modelled from the spec: the field number `i` of a package identifier. -/
def field (i : Nat) (packageId : String) : String :=
  String.mk ((splitFields packageId.data).getD i [])

/-- Modelled from the spec: a parsed version, for which `OrnPackageVersion` is not part
of `ornbackup.cpp`; the numbers of a dotted version string, where a character that is no
digit counts as `0`. -/
def versionParts (s : String) : List Nat :=
  (splitFields (s.data.map (fun c => if c = '.' then ';' else c))).map
    (fun part => part.foldl (fun n c => 10 * n + (c.toNat - 48)) 0)

/-- Modelled from the spec: one instance of the collaborators, used to evaluate the
engine on concrete inputs: PackageKit identifiers, the managed prefix `openrepos-`,
versions compared number by number, the default version below every parsed one. -/
def stdEnv : Env (List Nat) where
  repoNamePrefix := "openrepos-"
  repoUrl := fun author => "https://sailfish.openrepos.net/" ++ author
  packageName := field 0
  packageRepo := field 3
  packageVersion := field 1
  parseVersion := versionParts
  defaultVersion := []
  versionLt := fun a b => decide (a < b)
  parentDir := fun path =>
    String.mk ((path.data.reverse.dropWhile (fun c => c != '/')).drop 1).reverse

/-- An idle engine with nothing stored. -/
def emptyWorld : World where
  mStatus := .Idle
  mNamesToSearch := []
  mPackagesToInstall := []
  mInstalled := []
  repos := []
  ssuCalls := []
  bookmarks := []
  installedPackages := []
  files := []
  dirs := []
  creatable := []
  clock := 0
  signals := []
  jobs := []
  pending := []
  opened := []

/-! ## Assumptions on the collaborators and invariants of the engine -/

/-- The comparison `OrnPackageVersion::operator<` is a strict order. -/
structure StrictVersionOrder {V : Type} (d : Env V) : Prop where
  irrefl : ∀ a, d.versionLt a a = false
  trans : ∀ a b c, d.versionLt a b = true → d.versionLt b c = true → d.versionLt a c = true

/-- No version is below the default-constructed `OrnPackageVersion()`. -/
def DefaultLowest {V : Type} (d : Env V) : Prop :=
  ∀ v, d.versionLt v d.defaultVersion = false

/-- The parsed version of a package identifier. -/
def versionOf {V : Type} (d : Env V) (packageId : String) : V :=
  d.parseVersion (d.packageVersion packageId)

/-- Every candidate is stored under the package name of its identifier. -/
def KeysAreNames {V : Type} (d : Env V) (w : World) : Prop :=
  ∀ e ∈ w.mPackagesToInstall, e.1 = d.packageName e.2

/-- Every stored candidate has a version above the default-constructed one. -/
def AboveDefault {V : Type} (d : Env V) (w : World) : Prop :=
  ∀ e ∈ w.mPackagesToInstall, d.versionLt d.defaultVersion (versionOf d e.2) = true

/-- The state after the search stage of a run that looks for `names` and finds `found`. -/
def searched {V : Type} (d : Env V) (names found : List String) : World :=
  addPackages d found (pSearchPackages { emptyWorld with mNamesToSearch := names })

/-- A snapshot file with the three lists of one package, one repository, one bookmark. -/
def sampleSnapshot : QSettings :=
  ⟨[((GROUP_PACKAGES, OrnConst.installed), .strings ["app"]),
    ((GROUP_PACKAGES, OrnConst.bookmarks), .uints [7]),
    ((GROUP_REPOS, KEY_ALL), .strings ["alice"]),
    ((GROUP_REPOS, KEY_DISABLED), .strings [])]⟩

/-- An engine in the middle of a capture, next to a stored snapshot. -/
def busyWorld : World :=
  { emptyWorld with
    mStatus := .BackingUp
    files := [("/backups/old.ini", sampleSnapshot)]
    dirs := ["/backups"] }

/-- An idle engine next to a stored snapshot. -/
def idleWorld : World :=
  { emptyWorld with
    files := [("/backups/old.ini", sampleSnapshot)]
    dirs := ["/backups"] }

/-- Every signal that the log gains between the states `w` and `w1` satisfies `P`. -/
def Emits (P : Signal × Status → Prop) (w w1 : World) : Prop :=
  ∃ δ, w1.signals = w.signals ++ δ ∧ ∀ e ∈ δ, P e

/-- The state in which `pInstallPackages` is called in a run whose file-read stage ended
in `wr`: the refresh has finished, `pSearchPackages` has run, the packages `found` have
been delivered and the resolution has finished. -/
def searchStage {V : Type} (d : Env V) (found : List String) (wr : World) : World :=
  { addPackages d found (pSearchPackages
      { openTransaction .refreshCache false .pSearchPackages (setStatus .RefreshingRepos wr)
        with pending := [] })
    with pending := [] }

/-- A snapshot that holds a repository and a bookmark and no package. -/
def noPackagesSnapshot : QSettings :=
  ⟨[((GROUP_PACKAGES, OrnConst.bookmarks), .uints [7]),
    ((GROUP_REPOS, KEY_ALL), .strings ["alice"]),
    ((GROUP_REPOS, KEY_DISABLED), .strings ["alice"])]⟩

/-- An idle engine next to a snapshot without packages. -/
def noPackagesWorld : World :=
  { emptyWorld with
    files := [("/backups/empty.ini", noPackagesSnapshot)]
    dirs := ["/backups"] }

/-- The contents that `pBackup` gives to the snapshot file opened as `file0`, in the
state `w1` reached after the status was set to `BackingUp`. -/
def captured {V : Type} (d : Env V) (items : BackupItems) (w1 : World) (file0 : QSettings) :
    QSettings :=
  let file1 :=
    if items.BackupRepos then
      let rd := collectRepos d.repoNamePrefix.length w1.repos
      (file0.setValue (GROUP_REPOS, KEY_ALL) (.strings rd.1)).setValue
        (GROUP_REPOS, KEY_DISABLED) (.strings rd.2)
    else file0
  let file2 :=
    if items.BackupInstalled then
      file1.setValue (GROUP_PACKAGES, OrnConst.installed)
        (.strings (w1.installedPackages.map (fun p => p.name)))
    else file1
  let file3 :=
    if items.BackupBookmarks then
      file2.setValue (GROUP_PACKAGES, OrnConst.bookmarks) (.uints w1.bookmarks)
    else file2
  file3.setValue ("", OrnConst.created) (.time w1.clock)

/-- A registry with an enabled and a disabled repository, two bookmarks and one
installed package, next to a stored snapshot. -/
def stockedWorld : World :=
  { idleWorld with
    repos := [("openrepos-alice", true), ("openrepos-bob", false)]
    bookmarks := [3, 5]
    installedPackages := [⟨"app", "App"⟩]
    clock := 42 }

/-- A sequence of calls of `setStatus`, in order. -/
def setStatusSeq (ts : List Status) (w : World) : World :=
  ts.foldl (fun acc t => setStatus t acc) w

/-- The number of calls in a sequence of `setStatus` calls that change the status, when
the sequence starts in status `s`. -/
def changeCount : Status → List Status → Nat
  | _, [] => 0
  | s, t :: ts => (if s ≠ t then 1 else 0) + changeCount t ts

/-- The number of `statusChanged` notifications in the signal log. -/
def notifications (w : World) : Nat :=
  w.signals.countP (fun e => decide (e.1 = Signal.statusChanged))

/-- The test of `pAddPackage` for a candidate: the name is searched and the repository
carries the managed prefix. -/
def isCandidate {V : Type} (d : Env V) (names : List String) (packageId : String) : Bool :=
  names.contains (d.packageName packageId) && startsWith (d.packageRepo packageId) d.repoNamePrefix

/-- The candidates of the name `pname` among the packages `found`, in the order in which
they were found. -/
def candidatesOf {V : Type} (d : Env V) (names found : List String) (pname : String) : List String :=
  found.filter (fun packageId =>
    isCandidate d names packageId && decide (d.packageName packageId = pname))

/-- The registry after the loop of `pRestore` over `authors`, started on the registry
`r`. -/
def registerAll {V : Type} (d : Env V) (disabled authors : List String) (r : List (String × Bool)) :
    List (String × Bool) :=
  authors.foldl
    (fun acc author => hashInsert (d.repoNamePrefix ++ author) (!disabled.contains author) acc) r

/-- The author of a registry entry, as `pBackup` derives it from the alias. -/
def authorOf {V : Type} (d : Env V) (it : String × Bool) : String :=
  mid it.1 d.repoNamePrefix.length

/-- Modelled from the spec: the instance `stdEnv` with a default-constructed version that
is the version parsed from the empty string, since `OrnPackageVersion` is not part of
`ornbackup.cpp`; the order on versions is the one of `stdEnv`. -/
def plainEnv : Env (List Nat) :=
  { stdEnv with defaultVersion := versionParts "" }

end OrnBackup

namespace OrnBackup

variable {V : Type}

/-! ## Reconciliation: the newest candidate -/

theorem newest_append (d : Env V) (l : List String) (a : String) :
    newest d (l ++ [a]) = newestStep d (newest d l) a := by
  simp [newest, List.foldl_append]

/-- The inner loop keeps a version that no seen candidate exceeds; it either still holds
its initial value or holds a seen candidate together with that candidate's version. -/
theorem newest_inv (d : Env V) (ho : StrictVersionOrder d) (pids : List String) :
    (∀ p ∈ pids, d.versionLt (newest d pids).1 (versionOf d p) = false) ∧
      (newest d pids = (d.defaultVersion, "") ∨
        ((newest d pids).2 ∈ pids ∧ (newest d pids).1 = versionOf d (newest d pids).2)) := by
  induction pids using List.reverseRecOn with
  | nil => simp [newest]
  | append_singleton l a ih =>
    obtain ⟨hmax, hsel⟩ := ih
    rw [newest_append]
    cases h : d.versionLt (newest d l).1 (versionOf d a) with
    | true =>
      have hstep : newestStep d (newest d l) a = (versionOf d a, a) := by
        simp only [newestStep]
        rw [if_pos (by simpa [versionOf] using h)]
        rfl
      rw [hstep]
      refine ⟨?_, Or.inr ⟨by simp, rfl⟩⟩
      intro p hp
      rcases List.mem_append.mp hp with hp | hp
      · cases h2 : d.versionLt (versionOf d a) (versionOf d p) with
        | false => rfl
        | true =>
          have := ho.trans _ _ _ h h2
          rw [hmax p hp] at this
          exact absurd this (by simp)
      · have : p = a := by simpa using hp
        subst this
        exact ho.irrefl _
    | false =>
      have hstep : newestStep d (newest d l) a = newest d l := by
        simp only [newestStep]
        rw [if_neg (by simpa [versionOf] using h)]
      rw [hstep]
      refine ⟨?_, ?_⟩
      · intro p hp
        rcases List.mem_append.mp hp with hp | hp
        · exact hmax p hp
        · have : p = a := by simpa using hp
          subst this
          exact h
      · rcases hsel with h0 | ⟨h1, h2⟩
        · exact Or.inl h0
        · exact Or.inr ⟨List.mem_append_left _ h1, h2⟩

/-- When some candidate is above the default version, the loop ends on a candidate. -/
theorem newest_selected (d : Env V) (ho : StrictVersionOrder d) (pids : List String)
    (hex : ∃ p ∈ pids, d.versionLt d.defaultVersion (versionOf d p) = true) :
    (newest d pids).2 ∈ pids ∧ (newest d pids).1 = versionOf d (newest d pids).2 := by
  obtain ⟨hmax, hsel⟩ := newest_inv d ho pids
  rcases hsel with h0 | h
  · obtain ⟨p, hp, hlt⟩ := hex
    have := hmax p hp
    rw [h0] at this
    simp only at this
    rw [this] at hlt
    exact absurd hlt (by simp)
  · exact h

/-! ## Reconciliation: the install batch -/

theorem mem_valuesOf (m : List (String × String)) (k v : String) :
    v ∈ valuesOf m k ↔ (k, v) ∈ m := by
  simp only [valuesOf, List.mem_map, List.mem_filter, decide_eq_true_eq]
  constructor
  · rintro ⟨⟨a, b⟩, ⟨hm, hk⟩, hv⟩
    simp only at hk hv
    subst hk hv
    exact hm
  · intro h
    exact ⟨(k, v), ⟨h, rfl⟩, rfl⟩

theorem mem_uniqueKeys (m : List (String × String)) (k : String) :
    k ∈ uniqueKeys m ↔ ∃ v, (k, v) ∈ m := by
  simp only [uniqueKeys, List.mem_dedup, List.mem_map]
  constructor
  · rintro ⟨⟨a, b⟩, hm, hk⟩
    simp only at hk
    subst hk
    exact ⟨b, hm⟩
  · rintro ⟨v, h⟩
    exact ⟨(k, v), h, rfl⟩

theorem uniqueKeys_nodup (m : List (String × String)) : (uniqueKeys m).Nodup :=
  List.nodup_dedup _

theorem foldl_append_flatMap (f : String → List String) (l : List String) (acc : List String) :
    l.foldl (fun ids k => ids ++ f k) acc = acc ++ l.flatMap f := by
  induction l generalizing acc with
  | nil => simp
  | cons k l ih => simp [List.foldl_cons, ih, List.flatMap_cons, List.append_assoc]

/-- The outer loop concatenates the contributions of the distinct names. -/
theorem installIds_eq (d : Env V) (w : World) :
    installIds d w = (uniqueKeys w.mPackagesToInstall).flatMap (contribution d w) := by
  simp [installIds, foldl_append_flatMap]

theorem filter_flatMap_none (f : String → List String) (name : String → String)
    (pname : String) (l : List String)
    (hf : ∀ k ∈ l, ∀ id ∈ f k, name id ≠ pname) :
    (l.flatMap f).filter (fun id => decide (name id = pname)) = [] := by
  rw [List.filter_eq_nil_iff]
  intro id hid
  obtain ⟨k, hk, hmem⟩ := List.mem_flatMap.mp hid
  simpa using hf k hk id hmem

/-- In a concatenation over distinct names in which every part holds only identifiers of
its own name, the identifiers of one name are exactly the part of that name. -/
theorem filter_flatMap_nodup (f : String → List String) (name : String → String)
    (pname : String) (l : List String) (hnd : l.Nodup)
    (hf : ∀ k ∈ l, ∀ id ∈ f k, name id = k) (hp : pname ∈ l) :
    (l.flatMap f).filter (fun id => decide (name id = pname)) = f pname := by
  induction l with
  | nil => simp at hp
  | cons k l ih =>
    have hnd2 := List.nodup_cons.mp hnd
    rw [List.flatMap_cons, List.filter_append]
    by_cases hk : pname = k
    · subst hk
      have h1 : (f pname).filter (fun id => decide (name id = pname)) = f pname := by
        rw [List.filter_eq_self]
        intro id hid
        simpa using hf pname (List.mem_cons_self _ _) id hid
      have h2 : (l.flatMap f).filter (fun id => decide (name id = pname)) = [] := by
        apply filter_flatMap_none
        intro k hk id hid heq
        have := hf k (List.mem_cons_of_mem _ hk) id hid
        rw [heq] at this
        subst this
        exact hnd2.1 hk
      rw [h1, h2, List.append_nil]
    · have hp2 : pname ∈ l := by
        rcases List.mem_cons.mp hp with h | h
        · exact absurd h hk
        · exact h
      have h1 : (f k).filter (fun id => decide (name id = pname)) = [] := by
        rw [List.filter_eq_nil_iff]
        intro id hid
        have := hf k (List.mem_cons_self _ _) id hid
        simp only [decide_eq_true_eq]
        intro heq
        exact hk (heq.symm.trans this)
      rw [h1, List.nil_append]
      exact ih hnd2.2 (fun k hk => hf k (List.mem_cons_of_mem _ hk)) hp2

/-- A name with candidates above the default version contributes one of its candidates
or nothing. -/
theorem contribution_subset (d : Env V) (ho : StrictVersionOrder d) (w : World)
    (hpos : AboveDefault d w) (k : String) (hk : k ∈ uniqueKeys w.mPackagesToInstall) :
    ∀ id ∈ contribution d w k, id ∈ valuesOf w.mPackagesToInstall k := by
  intro id hid
  obtain ⟨v, hv⟩ := (mem_uniqueKeys _ _).mp hk
  have hex : ∃ p ∈ valuesOf w.mPackagesToInstall k,
      d.versionLt d.defaultVersion (versionOf d p) = true :=
    ⟨v, (mem_valuesOf _ _ _).mpr hv, hpos (k, v) hv⟩
  have hsel := (newest_selected d ho _ hex).1
  unfold contribution at hid
  split at hid
  · have : id = (newest d (valuesOf w.mPackagesToInstall k)).2 := by simpa using hid
    rw [this]
    exact hsel
  · simp at hid

/-- The identifiers of one name in the install batch are what the round of that name
appended. -/
theorem installIds_filter (d : Env V) (ho : StrictVersionOrder d) (w : World)
    (hwf : KeysAreNames d w) (hpos : AboveDefault d w) (pname : String)
    (hp : pname ∈ uniqueKeys w.mPackagesToInstall) :
    (installIds d w).filter (fun id => decide (d.packageName id = pname)) =
      contribution d w pname := by
  rw [installIds_eq]
  apply filter_flatMap_nodup _ _ _ _ (uniqueKeys_nodup _) _ hp
  intro k hk id hid
  have := contribution_subset d ho w hpos k hk id hid
  have := hwf (k, id) ((mem_valuesOf _ _ _).mp this)
  exact this.symm

/-! ## The concrete environment -/

theorem stdEnv_strict : StrictVersionOrder stdEnv where
  irrefl := fun a => by simp [stdEnv]
  trans := fun a b c hab hbc => by
    simp only [stdEnv, decide_eq_true_eq] at hab hbc ⊢
    exact lt_trans hab hbc

/-! ## Claims on the reconciliation -/

/-- C1: evaluation of `notFound` after a search for `a`, `b`, `c` in which managed
repositories offer only `a` and `b`.  The result is the list of the two recorded package
identifiers; the name `c`, for which nothing was found, is not reported. -/
theorem notFound_reports_candidate_ids :
    notFound (searched stdEnv ["a", "b", "c"]
        ["a;1.0;noarch;openrepos-x", "b;2.1;noarch;openrepos-y"]) =
      ["b;2.1;noarch;openrepos-y", "a;1.0;noarch;openrepos-x"] ∧
    "c" ∉ notFound (searched stdEnv ["a", "b", "c"]
        ["a;1.0;noarch;openrepos-x", "b;2.1;noarch;openrepos-y"]) := by
  decide

/-- C2: for a name that has candidates and no installed version, the install batch holds
exactly one identifier of that name; it is one of the name's candidates and no candidate
of the name has a higher version.  The version order is assumed strict, the candidates
are stored under their names (as `pAddPackage` does) with versions above the default
one. -/
theorem pInstallPackages_selects_newest (d : Env V) (w : World) (pname : String)
    (ho : StrictVersionOrder d) (hwf : KeysAreNames d w) (hpos : AboveDefault d w)
    (hcand : pname ∈ uniqueKeys w.mPackagesToInstall)
    (hinst : hashFind pname w.mInstalled = none) :
    (installIds d w).filter (fun id => decide (d.packageName id = pname)) =
        [(newest d (valuesOf w.mPackagesToInstall pname)).2] ∧
      (newest d (valuesOf w.mPackagesToInstall pname)).2 ∈ valuesOf w.mPackagesToInstall pname ∧
      ∀ pid ∈ valuesOf w.mPackagesToInstall pname,
        d.versionLt (versionOf d (newest d (valuesOf w.mPackagesToInstall pname)).2)
          (versionOf d pid) = false := by
  obtain ⟨v, hv⟩ := (mem_uniqueKeys _ _).mp hcand
  have hex : ∃ p ∈ valuesOf w.mPackagesToInstall pname,
      d.versionLt d.defaultVersion (versionOf d p) = true :=
    ⟨v, (mem_valuesOf _ _ _).mpr hv, hpos (pname, v) hv⟩
  obtain ⟨hmem, hver⟩ := newest_selected d ho _ hex
  refine ⟨?_, hmem, ?_⟩
  · rw [installIds_filter d ho w hwf hpos pname hcand]
    simp [contribution, needsInstall, hinst]
  · intro pid hpid
    rw [← hver]
    exact (newest_inv d ho _).1 pid hpid

/-- C2 at the candidates `app-1.0` and `app-2.0`: the batch is `app-2.0`. -/
theorem pInstallPackages_selects_newest_witness :
    installIds stdEnv (searched stdEnv ["app"]
        ["app;1.0;noarch;openrepos-x", "app;2.0;noarch;openrepos-x"]) =
      ["app;2.0;noarch;openrepos-x"] ∧
    (installIds stdEnv (searched stdEnv ["app"]
        ["app;1.0;noarch;openrepos-x", "app;2.0;noarch;openrepos-x"])).filter
        (fun id => decide (stdEnv.packageName id = "app")) =
      [(newest stdEnv (valuesOf (searched stdEnv ["app"]
        ["app;1.0;noarch;openrepos-x", "app;2.0;noarch;openrepos-x"]).mPackagesToInstall
        "app")).2] :=
  ⟨by decide,
    (pInstallPackages_selects_newest stdEnv (searched stdEnv ["app"]
      ["app;1.0;noarch;openrepos-x", "app;2.0;noarch;openrepos-x"]) "app" stdEnv_strict
      (by unfold KeysAreNames; decide) (by unfold AboveDefault; decide) (by decide)
      (by decide)).1⟩

/-- C3: a name with candidates has no identifier in the install batch if and only if the
installed-version map holds a version for it that is not below the version of the
selected candidate.  Same assumptions as for C2. -/
theorem pInstallPackages_skips_iff (d : Env V) (w : World) (pname : String)
    (ho : StrictVersionOrder d) (hwf : KeysAreNames d w) (hpos : AboveDefault d w)
    (hcand : pname ∈ uniqueKeys w.mPackagesToInstall) :
    (installIds d w).filter (fun id => decide (d.packageName id = pname)) = [] ↔
      ∃ inst, hashFind pname w.mInstalled = some inst ∧
        d.versionLt (d.parseVersion inst)
          (versionOf d (newest d (valuesOf w.mPackagesToInstall pname)).2) = false := by
  obtain ⟨v, hv⟩ := (mem_uniqueKeys _ _).mp hcand
  have hex : ∃ p ∈ valuesOf w.mPackagesToInstall pname,
      d.versionLt d.defaultVersion (versionOf d p) = true :=
    ⟨v, (mem_valuesOf _ _ _).mpr hv, hpos (pname, v) hv⟩
  obtain ⟨_, hver⟩ := newest_selected d ho _ hex
  rw [installIds_filter d ho w hwf hpos pname hcand, ← hver]
  unfold contribution needsInstall
  cases hfind : hashFind pname w.mInstalled with
  | none => simp
  | some inst =>
    cases hlt : d.versionLt (d.parseVersion inst)
        (newest d (valuesOf w.mPackagesToInstall pname)).1 with
    | true => simp [hlt]
    | false => simp [hlt]

/-- C3 at the installed version `2.0` and the single candidate `app-2.0`: nothing is
installed. -/
theorem pInstallPackages_skips_iff_witness :
    installIds stdEnv (searched stdEnv ["app"]
        ["app;2.0;noarch;installed", "app;2.0;noarch;openrepos-x"]) = [] ∧
    (installIds stdEnv (searched stdEnv ["app"]
        ["app;2.0;noarch;installed", "app;2.0;noarch;openrepos-x"])).filter
        (fun id => decide (stdEnv.packageName id = "app")) = [] :=
  ⟨by decide,
    (pInstallPackages_skips_iff stdEnv (searched stdEnv ["app"]
      ["app;2.0;noarch;installed", "app;2.0;noarch;openrepos-x"]) "app" stdEnv_strict
      (by unfold KeysAreNames; decide) (by unfold AboveDefault; decide) (by decide)).mpr
      ⟨"2.0", by decide, by decide⟩⟩

/-! ## Claims on the entry points -/

/-- C4: evaluation of `backup` on an idle engine when the directory of the target is
missing and cannot be created.  The error signal is emitted, and the capture job is
started all the same; when it runs, the status changes twice and `backedUp` is emitted,
while no file is written. -/
theorem backup_continues_after_directory_error :
    backup stdEnv "/backups/new.ini" ⟨true, true, true⟩ emptyWorld =
      some { emptyWorld with
        signals := [(.backupError .DirectoryError, .Idle)]
        jobs := [.pBackup "/backups/new.ini" ⟨true, true, true⟩] } ∧
    backupRun stdEnv "/backups/new.ini" ⟨true, true, true⟩ emptyWorld =
      some { emptyWorld with
        signals := [(.backupError .DirectoryError, .Idle), (.statusChanged, .BackingUp),
          (.statusChanged, .Idle), (.backedUp, .Idle)] } := by
  decide

/-- C5: while the status is not `Idle`, a call of `backup` or of `restore` whose
assertions hold returns at once: the whole state, the collaborators, the signal log, the
jobs and the transactions are what they were. -/
theorem busy_call_is_rejected (d : Env V) (w : World) (target source : String)
    (items : BackupItems) (hbusy : w.mStatus ≠ .Idle)
    (htarget : target ≠ "") (hnew : isFile w target = false) (hitems : items.nonEmpty = true)
    (hsource : source ≠ "") (hold : isFile w source = true) :
    backup d target items w = some w ∧ restore source w = some w := by
  constructor
  · simp [backup, htarget, hnew, hitems, hbusy]
  · simp [restore, hsource, hold, hbusy]

/-- C5 on an engine that is backing up. -/
theorem busy_call_is_rejected_witness :
    busyWorld.mStatus ≠ .Idle ∧
    backup stdEnv "/backups/new.ini" ⟨true, false, false⟩ busyWorld = some busyWorld ∧
    restore "/backups/old.ini" busyWorld = some busyWorld :=
  ⟨by decide,
    busy_call_is_rejected stdEnv busyWorld "/backups/new.ini" "/backups/old.ini"
      ⟨true, false, false⟩ (by decide) (by decide) (by decide) (by decide) (by decide)
      (by decide)⟩

theorem setStatus_eq (s : Status) (w : World) :
    setStatus s w = { w with
      mStatus := s
      signals := w.signals ++ (if w.mStatus ≠ s then [(.statusChanged, s)] else []) } := by
  unfold setStatus
  split
  · rename_i h
    simp [emit, h]
  · rename_i h
    have h2 : w.mStatus = s := by simpa using h
    subst h2
    simp

theorem pAddPackage_frame (d : Env V) (packageId : String) (w : World) :
    ∃ p i, pAddPackage d packageId w = { w with mPackagesToInstall := p, mInstalled := i } := by
  unfold pAddPackage
  simp only
  split
  · split
    · exact ⟨_, _, rfl⟩
    · split
      · exact ⟨_, _, rfl⟩
      · exact ⟨_, _, rfl⟩
  · exact ⟨_, _, rfl⟩

theorem addPackages_append (d : Env V) (l : List String) (a : String) (w : World) :
    addPackages d (l ++ [a]) w = pAddPackage d a (addPackages d l w) := by
  simp [addPackages, List.foldl_append]

theorem addPackages_frame (d : Env V) (found : List String) (w : World) :
    ∃ p i, addPackages d found w = { w with mPackagesToInstall := p, mInstalled := i } := by
  induction found using List.reverseRecOn with
  | nil => exact ⟨_, _, rfl⟩
  | append_singleton l a ih =>
    obtain ⟨p, i, h⟩ := ih
    obtain ⟨p2, i2, h2⟩ := pAddPackage_frame d a (addPackages d l w)
    rw [addPackages_append, h2, h]
    exact ⟨_, _, rfl⟩

theorem restoreRepos_frame (d : Env V) (disabled authors : List String) (w : World) :
    ∃ r s, authors.foldl (restoreRepo d disabled) w = { w with repos := r, ssuCalls := s } := by
  induction authors using List.reverseRecOn with
  | nil => exact ⟨_, _, rfl⟩
  | append_singleton l a ih =>
    obtain ⟨r, s, h⟩ := ih
    rw [List.foldl_append, h]
    exact ⟨_, _, rfl⟩

theorem restoreRepos_pending (d : Env V) (disabled authors : List String) (w : World) :
    (authors.foldl (restoreRepo d disabled) w).pending = w.pending := by
  obtain ⟨r, s, h⟩ := restoreRepos_frame d disabled authors w
  rw [h]

theorem restoreRepos_jobs (d : Env V) (disabled authors : List String) (w : World) :
    (authors.foldl (restoreRepo d disabled) w).jobs = w.jobs := by
  obtain ⟨r, s, h⟩ := restoreRepos_frame d disabled authors w
  rw [h]

theorem restoreRepos_opened (d : Env V) (disabled authors : List String) (w : World) :
    (authors.foldl (restoreRepo d disabled) w).opened = w.opened := by
  obtain ⟨r, s, h⟩ := restoreRepos_frame d disabled authors w
  rw [h]

theorem restoreRepos_names (d : Env V) (disabled authors : List String) (w : World) :
    (authors.foldl (restoreRepo d disabled) w).mNamesToSearch = w.mNamesToSearch := by
  obtain ⟨r, s, h⟩ := restoreRepos_frame d disabled authors w
  rw [h]

theorem restoreRepos_signals (d : Env V) (disabled authors : List String) (w : World) :
    (authors.foldl (restoreRepo d disabled) w).signals = w.signals := by
  obtain ⟨r, s, h⟩ := restoreRepos_frame d disabled authors w
  rw [h]

theorem pRestore_pending (d : Env V) (filePath : String) (w : World) :
    (pRestore d filePath w).pending = w.pending := by
  unfold pRestore
  simp only [setStatus_eq]
  split <;> split <;> simp [restoreRepos_pending]

theorem pRestore_jobs (d : Env V) (filePath : String) (w : World) :
    (pRestore d filePath w).jobs = w.jobs := by
  unfold pRestore
  simp only [setStatus_eq]
  split <;> split <;> simp [restoreRepos_jobs]

theorem pRestore_opened (d : Env V) (filePath : String) (w : World) :
    (pRestore d filePath w).opened = w.opened := by
  unfold pRestore
  simp only [setStatus_eq]
  split <;> split <;> simp [restoreRepos_opened]

theorem pRestore_names (d : Env V) (filePath : String) (w : World) :
    (pRestore d filePath w).mNamesToSearch =
      ((openSettings w filePath).value (GROUP_PACKAGES, OrnConst.installed)).toStringList := by
  unfold pRestore
  simp only [setStatus_eq]
  split <;> split <;> simp [restoreRepos_names]

/-- The file-read stage emits nothing but changes of the status to the two restoring
states. -/
theorem pRestore_emits (d : Env V) (filePath : String) (w : World) :
    Emits (fun e => e = (Signal.statusChanged, Status.RestoringBookmarks) ∨
        e = (Signal.statusChanged, Status.RestoringRepos)) w (pRestore d filePath w) := by
  unfold pRestore Emits
  simp only [setStatus_eq]
  split <;> split
  · simp only [restoreRepos_signals, List.append_assoc]
    refine ⟨_, rfl, ?_⟩
    intro e he
    simp only [List.mem_append] at he
    rcases he with he | he
    · split at he <;> simp_all
    · split at he <;> simp_all
  · simp only [restoreRepos_signals]
    refine ⟨_, rfl, ?_⟩
    intro e he
    split at he <;> simp_all
  · refine ⟨_, rfl, ?_⟩
    intro e he
    split at he <;> simp_all
  · exact ⟨[], by simp, by simp⟩

theorem emits_refl (P : Signal × Status → Prop) (w : World) : Emits P w w :=
  ⟨[], by simp, by simp⟩

theorem emits_of_signals_eq (P : Signal × Status → Prop) (w w1 : World)
    (h : w1.signals = w.signals) : Emits P w w1 :=
  ⟨[], by simp [h], by simp⟩

theorem emits_trans {P : Signal × Status → Prop} {w w1 w2 : World}
    (h1 : Emits P w w1) (h2 : Emits P w1 w2) : Emits P w w2 := by
  obtain ⟨δ1, e1, p1⟩ := h1
  obtain ⟨δ2, e2, p2⟩ := h2
  refine ⟨δ1 ++ δ2, by rw [e2, e1, List.append_assoc], ?_⟩
  intro e he
  rcases List.mem_append.mp he with he | he
  · exact p1 e he
  · exact p2 e he

theorem emits_mono {P Q : Signal × Status → Prop} {w w1 : World}
    (hPQ : ∀ e, P e → Q e) (h : Emits P w w1) : Emits Q w w1 := by
  obtain ⟨δ, e1, p1⟩ := h
  exact ⟨δ, e1, fun e he => hPQ e (p1 e he)⟩

theorem runTransaction_nil (d : Env V) (found : List String) (w : World)
    (h : w.pending = []) : runTransaction d found w = w := by
  unfold runTransaction
  rw [h]

theorem runTransaction_cons (d : Env V) (found : List String) (w : World) (t : Transaction)
    (rest : List Transaction) (h : w.pending = t :: rest) :
    runTransaction d found w =
      callSlot d t.onFinished
        { (if t.onPackage then addPackages d found w else w) with pending := rest } := by
  unfold runTransaction
  rw [h]

theorem pFinishRestore_pending (w : World) : (pFinishRestore w).pending = w.pending := by
  simp [pFinishRestore, setStatus_eq, emit]

theorem addPackages_pending (d : Env V) (found : List String) (w : World) :
    (addPackages d found w).pending = w.pending := by
  obtain ⟨p, i, h⟩ := addPackages_frame d found w
  rw [h]

theorem runTransaction_open (d : Env V) (found : List String) (w : World) (op : Op)
    (onPackage : Bool) (slot : Slot) (h : w.pending = []) :
    runTransaction d found (openTransaction op onPackage slot w) =
      callSlot d slot
        { (if onPackage then addPackages d found (openTransaction op onPackage slot w)
            else openTransaction op onPackage slot w) with pending := [] } := by
  rw [runTransaction_cons d found _ ⟨op, onPackage, slot⟩ [] (by simp [openTransaction, h])]

/-- The final state of a restore that starts on a quiet idle engine, along the three
exits of the pipeline. -/
theorem restoreRun_eq (d : Env V) (filePath : String) (found : List String) (w : World)
    (hidle : w.mStatus = .Idle) (hjobs : w.jobs = []) (hpend : w.pending = [])
    (hpath : filePath ≠ "") (hfile : isFile w filePath = true) :
    restoreRun d filePath found w = some
      (if (pRestore d filePath w).mNamesToSearch = [] then pFinishRestore (pRestore d filePath w)
      else if installIds d (searchStage d found (pRestore d filePath w)) = [] then
        pFinishRestore (searchStage d found (pRestore d filePath w))
      else
        pFinishRestore { openTransaction
            (.installPackages (installIds d (searchStage d found (pRestore d filePath w))))
            false .pFinishRestore
            (setStatus .InstallingPackages (searchStage d found (pRestore d filePath w)))
          with pending := [] }) := by
  have hw : { w with jobs := [] } = w := by
    cases w
    simp_all
  have h0 : restore filePath w = some { w with jobs := [.pRestore filePath] } := by
    simp [restore, hpath, hfile, hidle, hjobs]
  have h1 : runNextJob d { w with jobs := [.pRestore filePath] } =
      pRefreshRepos (pRestore d filePath w) := by
    simp [runNextJob, runJob, hw]
  have hp : (pRestore d filePath w).pending = [] := by rw [pRestore_pending, hpend]
  unfold restoreRun
  rw [h0, Option.map_some', h1]
  congr 1
  by_cases hn : (pRestore d filePath w).mNamesToSearch = []
  · rw [if_pos hn]
    have h2 : pRefreshRepos (pRestore d filePath w) = pFinishRestore (pRestore d filePath w) := by
      simp [pRefreshRepos, hn]
    have h3 : (pFinishRestore (pRestore d filePath w)).pending = [] := by
      rw [pFinishRestore_pending, hp]
    rw [h2, runTransaction_nil _ _ _ h3, runTransaction_nil _ _ _ h3, runTransaction_nil _ _ _ h3]
  · rw [if_neg hn]
    have h2 : pRefreshRepos (pRestore d filePath w) =
        openTransaction .refreshCache false .pSearchPackages
          (setStatus .RefreshingRepos (pRestore d filePath w)) := by
      simp [pRefreshRepos, hn]
    have h3 : runTransaction d found (pRefreshRepos (pRestore d filePath w)) =
        pSearchPackages { openTransaction .refreshCache false .pSearchPackages
          (setStatus .RefreshingRepos (pRestore d filePath w)) with pending := [] } := by
      rw [h2, runTransaction_open d found _ _ _ _ (by simp [setStatus_eq, hp])]
      simp [callSlot]
    have h4 : runTransaction d found (runTransaction d found
        (pRefreshRepos (pRestore d filePath w))) =
        pInstallPackages d (searchStage d found (pRestore d filePath w)) := by
      rw [h3]
      conv => lhs; arg 3; unfold pSearchPackages
      rw [runTransaction_open d found _ _ _ _ (by simp [setStatus_eq, openTransaction])]
      simp only [callSlot, if_true]
      rfl
    rw [h4]
    by_cases hi : installIds d (searchStage d found (pRestore d filePath w)) = []
    · rw [if_pos hi]
      have h5 : pInstallPackages d (searchStage d found (pRestore d filePath w)) =
          pFinishRestore (searchStage d found (pRestore d filePath w)) := by
        simp [pInstallPackages, hi]
      rw [h5, runTransaction_nil]
      simp [pFinishRestore_pending, searchStage]
    · rw [if_neg hi]
      have h5 : pInstallPackages d (searchStage d found (pRestore d filePath w)) =
          openTransaction
            (.installPackages (installIds d (searchStage d found (pRestore d filePath w))))
            false .pFinishRestore
            (setStatus .InstallingPackages (searchStage d found (pRestore d filePath w))) := by
        simp [pInstallPackages, hi]
      rw [h5, runTransaction_open d found _ _ _ _ (by simp [setStatus_eq, searchStage])]
      simp [callSlot]

theorem setStatus_emits (s : Status) (w : World) :
    Emits (fun e => e = (Signal.statusChanged, s)) w (setStatus s w) := by
  rw [setStatus_eq]
  refine ⟨_, rfl, ?_⟩
  intro e he
  split at he <;> simp_all

/-- The join point appends `restored`, emitted in status `Idle`, after at most one change
of the status to `Idle`. -/
theorem pFinishRestore_signals (P : Signal × Status → Prop) (w x : World)
    (hP : P (Signal.statusChanged, Status.Idle)) (h : Emits P w x) :
    ∃ δ, (pFinishRestore x).signals = w.signals ++ δ ++ [(Signal.restored, Status.Idle)] ∧
      ∀ e ∈ δ, P e := by
  obtain ⟨δ, e1, p1⟩ := h
  refine ⟨δ ++ (if x.mStatus ≠ .Idle then [(.statusChanged, .Idle)] else []), ?_, ?_⟩
  · simp [pFinishRestore, setStatus_eq, emit, e1]
  · intro e he
    rcases List.mem_append.mp he with he | he
    · exact p1 e he
    · split at he
      · have : e = (Signal.statusChanged, Status.Idle) := by simpa using he
        rw [this]
        exact hP
      · simp at he

theorem pFinishRestore_mStatus (w : World) : (pFinishRestore w).mStatus = .Idle := by
  simp [pFinishRestore, setStatus_eq, emit]

theorem pFinishRestore_opened (w : World) : (pFinishRestore w).opened = w.opened := by
  simp [pFinishRestore, setStatus_eq, emit]

theorem pFinishRestore_jobs (w : World) : (pFinishRestore w).jobs = w.jobs := by
  simp [pFinishRestore, setStatus_eq, emit]

theorem searchStage_pending (d : Env V) (found : List String) (wr : World) :
    (searchStage d found wr).pending = [] := rfl

theorem searchStage_jobs (d : Env V) (found : List String) (wr : World) :
    (searchStage d found wr).jobs = wr.jobs := by
  unfold searchStage
  obtain ⟨p, i, h⟩ := addPackages_frame d found (pSearchPackages
      { openTransaction .refreshCache false .pSearchPackages (setStatus .RefreshingRepos wr)
        with pending := [] })
  rw [h]
  simp [pSearchPackages, openTransaction, setStatus_eq]

theorem searchStage_opened (d : Env V) (found : List String) (wr : World) :
    (searchStage d found wr).opened =
      wr.opened ++ [.refreshCache, .resolve wr.mNamesToSearch] := by
  unfold searchStage
  obtain ⟨p, i, h⟩ := addPackages_frame d found (pSearchPackages
      { openTransaction .refreshCache false .pSearchPackages (setStatus .RefreshingRepos wr)
        with pending := [] })
  rw [h]
  simp [pSearchPackages, openTransaction, setStatus_eq]

theorem searchStage_emits (d : Env V) (found : List String) (wr : World) :
    Emits (fun e => e.1 = Signal.statusChanged) wr (searchStage d found wr) := by
  unfold searchStage
  obtain ⟨p, i, h⟩ := addPackages_frame d found (pSearchPackages
      { openTransaction .refreshCache false .pSearchPackages (setStatus .RefreshingRepos wr)
        with pending := [] })
  rw [h]
  refine ⟨(if wr.mStatus ≠ .RefreshingRepos then [(.statusChanged, .RefreshingRepos)] else [])
    ++ (if Status.RefreshingRepos ≠ Status.SearchingPackages then
      [(.statusChanged, .SearchingPackages)] else []), ?_, ?_⟩
  · simp [pSearchPackages, openTransaction, setStatus_eq]
  · intro e he
    rcases List.mem_append.mp he with he | he
    · split at he <;> simp_all
    · simp at he
      simp [he]

/-- A restore that starts on a quiet idle engine ends in status `Idle` with no open
transaction; the signals it emits are changes of the status followed by one `restored`
emitted in status `Idle`; the operations it requests are the refresh and the resolution
when names are searched, and the installation when the batch is not empty. -/
theorem restoreRun_spec (d : Env V) (filePath : String) (found : List String) (w : World)
    (hidle : w.mStatus = .Idle) (hjobs : w.jobs = []) (hpend : w.pending = [])
    (hpath : filePath ≠ "") (hfile : isFile w filePath = true) :
    ∃ w1 δ, restoreRun d filePath found w = some w1 ∧
      w1.signals = w.signals ++ δ ++ [(Signal.restored, Status.Idle)] ∧
      (∀ e ∈ δ, e.1 = Signal.statusChanged) ∧
      w1.mStatus = .Idle ∧ w1.pending = [] ∧ w1.jobs = [] ∧
      w1.opened = w.opened ++
        (if (pRestore d filePath w).mNamesToSearch = [] then []
        else [.refreshCache, .resolve (pRestore d filePath w).mNamesToSearch] ++
          (if installIds d (searchStage d found (pRestore d filePath w)) = [] then []
          else [.installPackages
            (installIds d (searchStage d found (pRestore d filePath w)))])) := by
  have hsc : Emits (fun e => e.1 = Signal.statusChanged) w (pRestore d filePath w) :=
    emits_mono (by rintro e (h | h) <;> simp [h]) (pRestore_emits d filePath w)
  have hsearch := emits_trans hsc (searchStage_emits d found (pRestore d filePath w))
  rw [restoreRun_eq d filePath found w hidle hjobs hpend hpath hfile]
  by_cases hn : (pRestore d filePath w).mNamesToSearch = []
  · rw [if_pos hn, if_pos hn]
    obtain ⟨δ, hs, hp⟩ := pFinishRestore_signals (fun e => e.1 = Signal.statusChanged) w _ rfl hsc
    exact ⟨_, δ, rfl, hs, hp, pFinishRestore_mStatus _,
      by rw [pFinishRestore_pending, pRestore_pending, hpend],
      by rw [pFinishRestore_jobs, pRestore_jobs, hjobs],
      by rw [pFinishRestore_opened, pRestore_opened, List.append_nil]⟩
  · rw [if_neg hn, if_neg hn]
    by_cases hi : installIds d (searchStage d found (pRestore d filePath w)) = []
    · rw [if_pos hi, if_pos hi]
      obtain ⟨δ, hs, hp⟩ := pFinishRestore_signals (fun e => e.1 = Signal.statusChanged) w _ rfl hsearch
      exact ⟨_, δ, rfl, hs, hp, pFinishRestore_mStatus _,
        by rw [pFinishRestore_pending, searchStage_pending],
        by rw [pFinishRestore_jobs, searchStage_jobs, pRestore_jobs, hjobs],
        by rw [pFinishRestore_opened, searchStage_opened, pRestore_opened]; simp⟩
    · rw [if_neg hi, if_neg hi]
      have hinst : Emits (fun e => e.1 = Signal.statusChanged) w
          { openTransaction
              (.installPackages (installIds d (searchStage d found (pRestore d filePath w))))
              false .pFinishRestore
              (setStatus .InstallingPackages (searchStage d found (pRestore d filePath w)))
            with pending := [] } :=
        emits_trans (emits_trans hsearch
          (emits_mono (by rintro e h; simp [h]) (setStatus_emits .InstallingPackages _)))
          (emits_of_signals_eq _ _ _ rfl)
      obtain ⟨δ, hs, hp⟩ := pFinishRestore_signals (fun e => e.1 = Signal.statusChanged) w _ rfl hinst
      refine ⟨_, δ, rfl, hs, hp, pFinishRestore_mStatus _, ?_, ?_, ?_⟩
      · rw [pFinishRestore_pending]
      · rw [pFinishRestore_jobs]
        simp [openTransaction, setStatus_eq, searchStage_jobs, pRestore_jobs, hjobs]
      · rw [pFinishRestore_opened]
        simp [openTransaction, setStatus_eq, searchStage_opened, pRestore_opened]

/-! ## The search stage -/

theorem hashFind_hashInsert_same {β : Type} (k : String) (v : β) (m : List (String × β)) :
    hashFind k (hashInsert k v m) = some v := by
  induction m with
  | nil => simp [hashInsert, hashFind]
  | cons e m ih =>
    unfold hashInsert
    split
    · simp [hashFind]
    · rename_i h
      simp [hashFind, h, ih]

theorem hashFind_hashInsert_ne {β : Type} (k n : String) (v : β) (m : List (String × β))
    (h : k ≠ n) : hashFind n (hashInsert k v m) = hashFind n m := by
  induction m with
  | nil => simp [hashInsert, hashFind, h]
  | cons e m ih =>
    unfold hashInsert
    split
    · rename_i he
      have : e.1 ≠ n := by rw [he]; exact h
      simp [hashFind, h, this]
    · by_cases hn : e.1 = n
      · simp [hashFind, hn]
      · simp [hashFind, hn, ih]

theorem addPackages_names (d : Env V) (found : List String) (w : World) :
    (addPackages d found w).mNamesToSearch = w.mNamesToSearch := by
  obtain ⟨p, i, h⟩ := addPackages_frame d found w
  rw [h]

/-- Every candidate that the search stage adds was found, is stored under its package
name, which is searched, and comes from a repository with the managed prefix. -/
theorem addPackages_candidates (d : Env V) (found : List String) (w : World) :
    ∀ e ∈ (addPackages d found w).mPackagesToInstall,
      e ∈ w.mPackagesToInstall ∨
        (e.2 ∈ found ∧ e.1 = d.packageName e.2 ∧ e.1 ∈ w.mNamesToSearch ∧
          startsWith (d.packageRepo e.2) d.repoNamePrefix = true) := by
  induction found using List.reverseRecOn with
  | nil =>
    intro e he
    exact Or.inl he
  | append_singleton l a ih =>
    intro e he
    rw [addPackages_append] at he
    have hnames := addPackages_names d l w
    have hold : e ∈ (addPackages d l w).mPackagesToInstall →
        e ∈ w.mPackagesToInstall ∨
        (e.2 ∈ l ++ [a] ∧ e.1 = d.packageName e.2 ∧ e.1 ∈ w.mNamesToSearch ∧
          startsWith (d.packageRepo e.2) d.repoNamePrefix = true) := by
      intro h
      rcases ih e h with h | ⟨h1, h2⟩
      · exact Or.inl h
      · exact Or.inr ⟨List.mem_append_left _ h1, h2⟩
    unfold pAddPackage at he
    simp only at he
    split at he
    · rename_i hc
      split at he
      · rename_i hp
        simp only [multiInsert, List.mem_cons] at he
        rcases he with he | he
        · subst he
          refine Or.inr ⟨by simp, rfl, ?_, hp⟩
          rw [← hnames]
          simpa using hc
        · exact hold he
      · split at he
        · exact hold he
        · exact hold he
    · exact hold he

/-- When an installed package of a searched name was found, the installed-version map
holds the version of such a package for that name. -/
theorem addPackages_installed (d : Env V) (found : List String) (w : World) (n : String)
    (hpre : startsWith OrnConst.installed d.repoNamePrefix = false)
    (hn : n ∈ w.mNamesToSearch)
    (hex : ∃ i ∈ found, d.packageName i = n ∧ d.packageRepo i = OrnConst.installed) :
    ∃ i ∈ found, d.packageName i = n ∧ d.packageRepo i = OrnConst.installed ∧
      hashFind n (addPackages d found w).mInstalled = some (d.packageVersion i) := by
  induction found using List.reverseRecOn with
  | nil => simp at hex
  | append_singleton l a ih =>
    have hnames := addPackages_names d l w
    rw [addPackages_append]
    by_cases ha : d.packageName a = n ∧ d.packageRepo a = OrnConst.installed
    · refine ⟨a, by simp, ha.1, ha.2, ?_⟩
      have hc : (addPackages d l w).mNamesToSearch.contains (d.packageName a) = true := by
        rw [hnames, ha.1]
        simpa using hn
      unfold pAddPackage
      simp only [hc, if_true, ha.2, hpre, Bool.false_eq_true, if_false]
      rw [ha.1]
      exact hashFind_hashInsert_same _ _ _
    · have hex2 : ∃ i ∈ l, d.packageName i = n ∧ d.packageRepo i = OrnConst.installed := by
        obtain ⟨i, hi, h1, h2⟩ := hex
        rcases List.mem_append.mp hi with hi | hi
        · exact ⟨i, hi, h1, h2⟩
        · have : i = a := by simpa using hi
          subst this
          exact absurd ⟨h1, h2⟩ ha
      obtain ⟨i, hi, h1, h2, h3⟩ := ih hex2
      refine ⟨i, List.mem_append_left _ hi, h1, h2, ?_⟩
      unfold pAddPackage
      simp only
      split
      · split
        · exact h3
        · split
          · rename_i hr
            have hne : d.packageName a ≠ n := fun h => ha ⟨h, hr⟩
            simp only
            rw [hashFind_hashInsert_ne _ _ _ _ hne]
            exact h3
          · exact h3
      · exact h3

/-- The inner loop ends on its initial value or on a candidate with its version. -/
theorem newest_cases (d : Env V) (pids : List String) :
    newest d pids = (d.defaultVersion, "") ∨
      ((newest d pids).2 ∈ pids ∧ (newest d pids).1 = versionOf d (newest d pids).2) := by
  induction pids using List.reverseRecOn with
  | nil => simp [newest]
  | append_singleton l a ih =>
    rw [newest_append]
    unfold newestStep
    simp only
    split
    · exact Or.inr ⟨by simp, rfl⟩
    · rcases ih with h | ⟨h1, h2⟩
      · exact Or.inl h
      · exact Or.inr ⟨List.mem_append_left _ h1, h2⟩

theorem searchStage_candidates (d : Env V) (found : List String) (wr : World) :
    ∀ e ∈ (searchStage d found wr).mPackagesToInstall,
      e.2 ∈ found ∧ e.1 = d.packageName e.2 ∧ e.1 ∈ wr.mNamesToSearch ∧
        startsWith (d.packageRepo e.2) d.repoNamePrefix = true := by
  intro e he
  have := addPackages_candidates d found (pSearchPackages
      { openTransaction .refreshCache false .pSearchPackages (setStatus .RefreshingRepos wr)
        with pending := [] }) e he
  simpa [pSearchPackages, openTransaction, setStatus_eq] using this

/-- The search stage stores every candidate under its package name. -/
theorem searchStage_keysAreNames (d : Env V) (found : List String) (wr : World) :
    KeysAreNames d (searchStage d found wr) :=
  fun e he => (searchStage_candidates d found wr e he).2.1

theorem searchStage_installed (d : Env V) (found : List String) (wr : World) (n : String)
    (hpre : startsWith OrnConst.installed d.repoNamePrefix = false)
    (hn : n ∈ wr.mNamesToSearch)
    (hex : ∃ i ∈ found, d.packageName i = n ∧ d.packageRepo i = OrnConst.installed) :
    ∃ i ∈ found, d.packageName i = n ∧ d.packageRepo i = OrnConst.installed ∧
      hashFind n (searchStage d found wr).mInstalled = some (d.packageVersion i) := by
  have := addPackages_installed d found (pSearchPackages
      { openTransaction .refreshCache false .pSearchPackages (setStatus .RefreshingRepos wr)
        with pending := [] }) n hpre
    (by simpa [pSearchPackages, openTransaction, setStatus_eq] using hn) hex
  exact this

/-- When every searched name was found installed in a version that no candidate of the
name exceeds, the install batch is empty. -/
theorem installIds_nil_of_installed (d : Env V) (found : List String) (wr : World)
    (hbot : DefaultLowest d)
    (hpre : startsWith OrnConst.installed d.repoNamePrefix = false)
    (hall : ∀ n ∈ wr.mNamesToSearch,
      ∃ i ∈ found, d.packageName i = n ∧ d.packageRepo i = OrnConst.installed)
    (hnew : ∀ i ∈ found, ∀ c ∈ found, d.packageRepo i = OrnConst.installed →
      startsWith (d.packageRepo c) d.repoNamePrefix = true →
      d.packageName i = d.packageName c →
      d.versionLt (versionOf d i) (versionOf d c) = false) :
    installIds d (searchStage d found wr) = [] := by
  rw [installIds_eq, List.flatMap_eq_nil_iff]
  intro k hk
  obtain ⟨v, hv⟩ := (mem_uniqueKeys _ _).mp hk
  obtain ⟨_, _, hkn, _⟩ := searchStage_candidates d found wr (k, v) hv
  obtain ⟨i, hi, hin, hir, hfind⟩ :=
    searchStage_installed d found wr k hpre hkn (hall k hkn)
  have hlt : d.versionLt (d.parseVersion (d.packageVersion i))
      (newest d (valuesOf (searchStage d found wr).mPackagesToInstall k)).1 = false := by
    rcases newest_cases d (valuesOf (searchStage d found wr).mPackagesToInstall k) with h | ⟨h1, h2⟩
    · rw [h]
      exact hbot _
    · rw [h2]
      obtain ⟨hc1, hc2, _, hc4⟩ :=
        searchStage_candidates d found wr _ ((mem_valuesOf _ _ _).mp h1)
      exact hnew i hi _ hc1 hir hc4 (hin.trans hc2)
  simp [contribution, needsInstall, hfind, hlt]

theorem stdEnv_defaultLowest : DefaultLowest stdEnv := by
  intro v
  simp only [stdEnv, decide_eq_false_iff_not]
  intro h
  cases h

/-! ## Claims on the pipeline -/

/-- C6: a restore accepted by a quiet idle engine, in which every transaction delivers
`Finished` once, emits `restored` exactly once, as its last signal and in status `Idle`;
every other signal of the run is a change of the status.  The run ends in status `Idle`
with no open transaction, whichever exit the pipeline takes. -/
theorem restore_emits_restored_once (d : Env V) (filePath : String) (found : List String)
    (w : World) (hidle : w.mStatus = .Idle) (hjobs : w.jobs = []) (hpend : w.pending = [])
    (hpath : filePath ≠ "") (hfile : isFile w filePath = true) :
    ∃ w1 δ, restoreRun d filePath found w = some w1 ∧
      w1.signals = w.signals ++ δ ++ [(Signal.restored, Status.Idle)] ∧
      (∀ e ∈ δ, e.1 = Signal.statusChanged) ∧
      w1.signals.countP (fun e => decide (e.1 = Signal.restored)) =
        w.signals.countP (fun e => decide (e.1 = Signal.restored)) + 1 ∧
      w1.mStatus = .Idle ∧ w1.pending = [] := by
  obtain ⟨w1, δ, h1, h2, h3, h4, h5, _, _⟩ :=
    restoreRun_spec d filePath found w hidle hjobs hpend hpath hfile
  refine ⟨w1, δ, h1, h2, h3, ?_, h4, h5⟩
  have hδ : δ.countP (fun e => decide (e.1 = Signal.restored)) = 0 := by
    rw [List.countP_eq_zero]
    intro e he
    simp [h3 e he]
  rw [h2, List.countP_append, List.countP_append, hδ]
  simp

/-- C6 on the three exits: no package in the snapshot, nothing to install, and the full
chain. -/
theorem restore_emits_restored_once_witness :
    (∃ w1 δ, restoreRun stdEnv "/backups/empty.ini" [] noPackagesWorld = some w1 ∧
      w1.signals = noPackagesWorld.signals ++ δ ++ [(Signal.restored, Status.Idle)] ∧
      (∀ e ∈ δ, e.1 = Signal.statusChanged) ∧
      w1.signals.countP (fun e => decide (e.1 = Signal.restored)) =
        noPackagesWorld.signals.countP (fun e => decide (e.1 = Signal.restored)) + 1 ∧
      w1.mStatus = .Idle ∧ w1.pending = []) ∧
    (restoreRun stdEnv "/backups/old.ini" [] idleWorld).map (fun w => w.signals) =
      some [(.statusChanged, .RestoringBookmarks), (.statusChanged, .RestoringRepos),
        (.statusChanged, .RefreshingRepos), (.statusChanged, .SearchingPackages),
        (.statusChanged, .Idle), (.restored, .Idle)] ∧
    (restoreRun stdEnv "/backups/old.ini" ["app;2.0;noarch;openrepos-x"] idleWorld).map
        (fun w => w.signals) =
      some [(.statusChanged, .RestoringBookmarks), (.statusChanged, .RestoringRepos),
        (.statusChanged, .RefreshingRepos), (.statusChanged, .SearchingPackages),
        (.statusChanged, .InstallingPackages), (.statusChanged, .Idle), (.restored, .Idle)] :=
  ⟨restore_emits_restored_once stdEnv "/backups/empty.ini" [] noPackagesWorld
      (by decide) (by decide) (by decide) (by decide) (by decide),
    by decide, by decide⟩

/-- C7: when the snapshot lists no installed package, the run requests no operation from
any transaction, the status only changes to `RestoringBookmarks`, `RestoringRepos` and
`Idle`, and the run ends in status `Idle` with `restored` emitted. -/
theorem empty_selection_skips_pipeline (d : Env V) (filePath : String) (found : List String)
    (w : World) (hidle : w.mStatus = .Idle) (hjobs : w.jobs = []) (hpend : w.pending = [])
    (hpath : filePath ≠ "") (hfile : isFile w filePath = true)
    (hempty : ((openSettings w filePath).value
      (GROUP_PACKAGES, OrnConst.installed)).toStringList = []) :
    ∃ w1 δ, restoreRun d filePath found w = some w1 ∧
      w1.opened = w.opened ∧ w1.pending = [] ∧ w1.mStatus = .Idle ∧
      w1.signals = w.signals ++ δ ++ [(Signal.restored, Status.Idle)] ∧
      ∀ e ∈ δ, e = (Signal.statusChanged, Status.RestoringBookmarks) ∨
        e = (Signal.statusChanged, Status.RestoringRepos) ∨
        e = (Signal.statusChanged, Status.Idle) := by
  have hn : (pRestore d filePath w).mNamesToSearch = [] := by rw [pRestore_names, hempty]
  have hem : Emits (fun e => e = (Signal.statusChanged, Status.RestoringBookmarks) ∨
        e = (Signal.statusChanged, Status.RestoringRepos) ∨
        e = (Signal.statusChanged, Status.Idle)) w (pRestore d filePath w) :=
    emits_mono (by rintro e (h | h) <;> simp [h]) (pRestore_emits d filePath w)
  obtain ⟨δ, hs, hp⟩ := pFinishRestore_signals _ w _ (by simp) hem
  refine ⟨pFinishRestore (pRestore d filePath w), δ, ?_, ?_, ?_, pFinishRestore_mStatus _,
    hs, hp⟩
  · rw [restoreRun_eq d filePath found w hidle hjobs hpend hpath hfile, if_pos hn]
  · rw [pFinishRestore_opened, pRestore_opened]
  · rw [pFinishRestore_pending, pRestore_pending, hpend]

/-- C7 on a snapshot that holds a repository and a bookmark only. -/
theorem empty_selection_skips_pipeline_witness :
    (restoreRun stdEnv "/backups/empty.ini" ["app;2.0;noarch;openrepos-x"]
        noPackagesWorld).map (fun w => (w.opened, w.mStatus, w.signals)) =
      some ([], .Idle, [(.statusChanged, .RestoringBookmarks),
        (.statusChanged, .RestoringRepos), (.statusChanged, .Idle), (.restored, .Idle)]) ∧
    ∃ w1 δ, restoreRun stdEnv "/backups/empty.ini" ["app;2.0;noarch;openrepos-x"]
        noPackagesWorld = some w1 ∧
      w1.opened = noPackagesWorld.opened ∧ w1.pending = [] ∧ w1.mStatus = .Idle ∧
      w1.signals = noPackagesWorld.signals ++ δ ++ [(Signal.restored, Status.Idle)] ∧
      ∀ e ∈ δ, e = (Signal.statusChanged, Status.RestoringBookmarks) ∨
        e = (Signal.statusChanged, Status.RestoringRepos) ∨
        e = (Signal.statusChanged, Status.Idle) :=
  ⟨by decide,
    empty_selection_skips_pipeline stdEnv "/backups/empty.ini" ["app;2.0;noarch;openrepos-x"]
      noPackagesWorld (by decide) (by decide) (by decide) (by decide) (by decide)
      (by decide)⟩

/-- C8, the claim as stated fails: the snapshot lists `app`, resolution reports `app` as
installed in version `1.0` and offers `app-2.0` from a managed repository; every name is
reported as installed, and the installation of `app-2.0` is requested. -/
theorem installed_name_with_newer_candidate_is_installed :
    ((openSettings idleWorld "/backups/old.ini").value
      (GROUP_PACKAGES, OrnConst.installed)).toStringList = ["app"] ∧
    (∀ n ∈ ["app"], ∃ i ∈ ["app;1.0;noarch;installed", "app;2.0;noarch;openrepos-x"],
      stdEnv.packageName i = n ∧ stdEnv.packageRepo i = OrnConst.installed) ∧
    (restoreRun stdEnv "/backups/old.ini"
        ["app;1.0;noarch;installed", "app;2.0;noarch;openrepos-x"] idleWorld).map
        (fun w => w.opened) =
      some [.refreshCache, .resolve ["app"],
        .installPackages ["app;2.0;noarch;openrepos-x"]] := by
  decide

/-- C8, amended: when resolution reports every name of the snapshot as installed and no
such report has a version below that of a managed-repository candidate of the same name,
the run requests the refresh and the resolution only, no installation, and ends in status
`Idle` with `restored` emitted once.  Assumed: no version is below the default one, and
the name of the pseudo-repository does not carry the managed prefix. -/
theorem up_to_date_restore_installs_nothing (d : Env V) (filePath : String)
    (found : List String) (w : World)
    (hidle : w.mStatus = .Idle) (hjobs : w.jobs = []) (hpend : w.pending = [])
    (hpath : filePath ≠ "") (hfile : isFile w filePath = true)
    (hbot : DefaultLowest d)
    (hpre : startsWith OrnConst.installed d.repoNamePrefix = false)
    (hall : ∀ n ∈ ((openSettings w filePath).value
        (GROUP_PACKAGES, OrnConst.installed)).toStringList,
      ∃ i ∈ found, d.packageName i = n ∧ d.packageRepo i = OrnConst.installed)
    (hnew : ∀ i ∈ found, ∀ c ∈ found, d.packageRepo i = OrnConst.installed →
      startsWith (d.packageRepo c) d.repoNamePrefix = true →
      d.packageName i = d.packageName c →
      d.versionLt (versionOf d i) (versionOf d c) = false) :
    ∃ w1 δ, restoreRun d filePath found w = some w1 ∧
      (∀ ids, Op.installPackages ids ∉ w1.opened.drop w.opened.length) ∧
      w1.opened = w.opened ++
        (if ((openSettings w filePath).value
            (GROUP_PACKAGES, OrnConst.installed)).toStringList = [] then []
          else [.refreshCache, .resolve ((openSettings w filePath).value
            (GROUP_PACKAGES, OrnConst.installed)).toStringList]) ∧
      w1.mStatus = .Idle ∧ w1.pending = [] ∧
      w1.signals = w.signals ++ δ ++ [(Signal.restored, Status.Idle)] ∧
      (∀ e ∈ δ, e.1 = Signal.statusChanged) := by
  obtain ⟨w1, δ, h1, h2, h3, h4, h5, _, h7⟩ :=
    restoreRun_spec d filePath found w hidle hjobs hpend hpath hfile
  have hids : installIds d (searchStage d found (pRestore d filePath w)) = [] :=
    installIds_nil_of_installed d found _ hbot hpre
      (by rw [pRestore_names]; exact hall) hnew
  rw [hids, pRestore_names] at h7
  simp only [if_true, List.append_nil] at h7
  refine ⟨w1, δ, h1, ?_, h7, h4, h5, h2, h3⟩
  intro ids hmem
  rw [h7, List.drop_left] at hmem
  split at hmem <;> simp at hmem

/-- C8 amended, on an installed `app-2.0` with the candidate `app-2.0`. -/
theorem up_to_date_restore_installs_nothing_witness :
    (restoreRun stdEnv "/backups/old.ini"
        ["app;2.0;noarch;installed", "app;2.0;noarch;openrepos-x"] idleWorld).map
        (fun w => (w.opened, w.mStatus)) =
      some ([.refreshCache, .resolve ["app"]], .Idle) ∧
    ∃ w1 δ, restoreRun stdEnv "/backups/old.ini"
        ["app;2.0;noarch;installed", "app;2.0;noarch;openrepos-x"] idleWorld = some w1 ∧
      (∀ ids, Op.installPackages ids ∉ w1.opened.drop idleWorld.opened.length) ∧
      w1.opened = idleWorld.opened ++
        (if ((openSettings idleWorld "/backups/old.ini").value
            (GROUP_PACKAGES, OrnConst.installed)).toStringList = [] then []
          else [.refreshCache, .resolve ((openSettings idleWorld "/backups/old.ini").value
            (GROUP_PACKAGES, OrnConst.installed)).toStringList]) ∧
      w1.mStatus = .Idle ∧ w1.pending = [] ∧
      w1.signals = idleWorld.signals ++ δ ++ [(Signal.restored, Status.Idle)] ∧
      (∀ e ∈ δ, e.1 = Signal.statusChanged) :=
  ⟨by decide,
    up_to_date_restore_installs_nothing stdEnv "/backups/old.ini"
      ["app;2.0;noarch;installed", "app;2.0;noarch;openrepos-x"] idleWorld
      (by decide) (by decide) (by decide) (by decide) (by decide)
      stdEnv_defaultLowest (by decide) (by decide) (by decide)⟩

/-! ## The snapshot file -/

theorem value_setValue_same (f : QSettings) (k : SettingsKey) (v : QVariant) :
    (f.setValue k v).value k = v := by
  simp [QSettings.value, QSettings.setValue]

theorem value_setValue_ne (f : QSettings) (k k2 : SettingsKey) (v : QVariant) (h : k ≠ k2) :
    (f.setValue k v).value k2 = f.value k2 := by
  have hp : (fun a : SettingsKey × QVariant =>
      decide (decide (a.1 ≠ k) = true ∧ decide (a.1 = k2) = true)) =
      (fun e => decide (e.1 = k2)) := by
    funext a
    by_cases h1 : a.1 = k2
    · have h2 : a.1 ≠ k := fun h2 => h (h2.symm.trans h1)
      simp [h1, h2]
      exact fun h3 => h2 (h1.trans h3)
    · simp [h1]
  simp only [QSettings.value, QSettings.setValue, List.find?_cons, h, decide_False]
  rw [List.find?_filter, hp]

theorem value_empty (k : SettingsKey) : (QSettings.mk []).value k = .invalid := rfl

/-- The loop over the registry yields the authors of all entries and, in the same order,
the authors of the disabled entries. -/
theorem collectRepos_eq (n : Nat) (repos : List (String × Bool)) :
    collectRepos n repos =
      (repos.map (fun it => mid it.1 n),
        (repos.filter (fun it => !it.2)).map (fun it => mid it.1 n)) := by
  induction repos using List.reverseRecOn with
  | nil => rfl
  | append_singleton l a ih =>
    unfold collectRepos at ih ⊢
    rw [List.foldl_append, ih]
    cases h : a.2 <;> simp [h, List.filter_append]

theorem pBackup_eq (d : Env V) (filePath : String) (items : BackupItems) (w : World) :
    pBackup d filePath items w =
      syncSettings d filePath
        (captured d items (setStatus .BackingUp w) (openSettings (setStatus .BackingUp w) filePath))
        (emit .backedUp (setStatus .Idle (setStatus .BackingUp w))) := rfl

/-- When the directory of the target exists, the capture leaves the captured contents in
the target file. -/
theorem pBackup_snapshot (d : Env V) (filePath : String) (items : BackupItems) (w : World)
    (hdir : d.parentDir filePath ∈ w.dirs) :
    isFile (pBackup d filePath items w) filePath = true ∧
      openSettings (pBackup d filePath items w) filePath =
        captured d items w (openSettings w filePath) := by
  rw [pBackup_eq]
  have hd : d.parentDir filePath ∈ (emit .backedUp (setStatus .Idle (setStatus .BackingUp w))).dirs := by
    simpa [emit, setStatus_eq] using hdir
  unfold syncSettings
  rw [if_pos hd]
  constructor
  · simp [isFile, hashFind_hashInsert_same]
  · simp only [openSettings, hashFind_hashInsert_same, Option.getD_some]
    simp [captured, setStatus_eq]

/-! ## Claims on the capture -/

/-- C9: after a capture of all three items into a directory that exists, `details`
reports the number of registry entries, of installed packages and of bookmarks that the
capture found. -/
theorem capture_then_details (d : Env V) (filePath : String) (w : World)
    (hdir : d.parentDir filePath ∈ w.dirs) :
    details (pBackup d filePath ⟨true, true, true⟩ w) filePath =
      some ⟨w.clock, w.repos.length, w.installedPackages.length, w.bookmarks.length⟩ := by
  obtain ⟨hfile, hopen⟩ := pBackup_snapshot d filePath ⟨true, true, true⟩ w hdir
  unfold details
  rw [if_pos hfile]
  simp only [hopen, captured, if_true, collectRepos_eq]
  rw [value_setValue_same]
  rw [value_setValue_ne _ _ (GROUP_PACKAGES, OrnConst.bookmarks) _ (by decide),
    value_setValue_same]
  rw [value_setValue_ne _ _ (GROUP_PACKAGES, OrnConst.installed) _ (by decide),
    value_setValue_ne _ _ (GROUP_PACKAGES, OrnConst.installed) _ (by decide),
    value_setValue_same]
  rw [value_setValue_ne _ _ (GROUP_REPOS, KEY_ALL) _ (by decide),
    value_setValue_ne _ _ (GROUP_REPOS, KEY_ALL) _ (by decide),
    value_setValue_ne _ _ (GROUP_REPOS, KEY_ALL) _ (by decide),
    value_setValue_ne _ _ (GROUP_REPOS, KEY_ALL) _ (by decide),
    value_setValue_same]
  simp [QVariant.toStringList]

/-- C9 on a registry of two repositories, one installed package and two bookmarks. -/
theorem capture_then_details_witness :
    stdEnv.parentDir "/backups/new.ini" ∈ stockedWorld.dirs ∧
    details (pBackup stdEnv "/backups/new.ini" ⟨true, true, true⟩ stockedWorld)
        "/backups/new.ini" = some ⟨42, 2, 1, 2⟩ :=
  ⟨by decide, capture_then_details stdEnv "/backups/new.ini" stockedWorld (by decide)⟩

/-- C10: in the snapshot that a capture writes to a new file, every disabled author is
among all authors; the disabled authors form a sublist of all authors, and when the
repositories are selected the two lists are the authors of all registry entries and of
the disabled registry entries, in registry order. -/
theorem disabled_repos_sublist_of_all (d : Env V) (filePath : String) (items : BackupItems)
    (w : World) (hnew : isFile w filePath = false) (hdir : d.parentDir filePath ∈ w.dirs) :
    (∀ a ∈ ((openSettings (pBackup d filePath items w) filePath).value
        (GROUP_REPOS, KEY_DISABLED)).toStringList,
      a ∈ ((openSettings (pBackup d filePath items w) filePath).value
        (GROUP_REPOS, KEY_ALL)).toStringList) ∧
    (((openSettings (pBackup d filePath items w) filePath).value
        (GROUP_REPOS, KEY_DISABLED)).toStringList).Sublist
      (((openSettings (pBackup d filePath items w) filePath).value
        (GROUP_REPOS, KEY_ALL)).toStringList) ∧
    (items.BackupRepos = true →
      ((openSettings (pBackup d filePath items w) filePath).value
          (GROUP_REPOS, KEY_ALL)).toStringList =
        w.repos.map (fun it => mid it.1 d.repoNamePrefix.length) ∧
      ((openSettings (pBackup d filePath items w) filePath).value
          (GROUP_REPOS, KEY_DISABLED)).toStringList =
        (w.repos.filter (fun it => !it.2)).map (fun it => mid it.1 d.repoNamePrefix.length)) := by
  obtain ⟨_, hopen⟩ := pBackup_snapshot d filePath items w hdir
  have hfile0 : openSettings w filePath = ⟨[]⟩ := by
    unfold isFile at hnew
    unfold openSettings
    cases h : hashFind filePath w.files with
    | none => rfl
    | some f => simp [h] at hnew
  rw [hopen, hfile0]
  have hall : ((captured d items w ⟨[]⟩).value (GROUP_REPOS, KEY_ALL)).toStringList =
      if items.BackupRepos then w.repos.map (fun it => mid it.1 d.repoNamePrefix.length)
      else [] := by
    unfold captured
    simp only [collectRepos_eq]
    rw [value_setValue_ne _ _ (GROUP_REPOS, KEY_ALL) _ (by decide)]
    cases items.BackupRepos <;> cases items.BackupInstalled <;> cases items.BackupBookmarks <;>
      simp [value_setValue_same, value_setValue_ne, value_empty, QVariant.toStringList,
        GROUP_REPOS, GROUP_PACKAGES, KEY_ALL, KEY_DISABLED, OrnConst.installed,
        OrnConst.bookmarks]
  have hdis : ((captured d items w ⟨[]⟩).value (GROUP_REPOS, KEY_DISABLED)).toStringList =
      if items.BackupRepos then
        (w.repos.filter (fun it => !it.2)).map (fun it => mid it.1 d.repoNamePrefix.length)
      else [] := by
    unfold captured
    simp only [collectRepos_eq]
    rw [value_setValue_ne _ _ (GROUP_REPOS, KEY_DISABLED) _ (by decide)]
    cases items.BackupRepos <;> cases items.BackupInstalled <;> cases items.BackupBookmarks <;>
      simp [value_setValue_same, value_setValue_ne, value_empty, QVariant.toStringList,
        GROUP_REPOS, GROUP_PACKAGES, KEY_ALL, KEY_DISABLED, OrnConst.installed,
        OrnConst.bookmarks]
  rw [hall, hdis]
  have hsub : ((w.repos.filter (fun it => !it.2)).map
      (fun it => mid it.1 d.repoNamePrefix.length)).Sublist
      (w.repos.map (fun it => mid it.1 d.repoNamePrefix.length)) :=
    List.Sublist.map _ (List.filter_sublist _)
  cases hr : items.BackupRepos with
  | false => simp
  | true =>
    simp only [if_true]
    exact ⟨fun a ha => hsub.subset ha, hsub, by simp⟩

/-- C10 on a registry with the enabled `alice` and the disabled `bob`. -/
theorem disabled_repos_sublist_of_all_witness :
    ((openSettings (pBackup stdEnv "/backups/new.ini" ⟨true, false, false⟩ stockedWorld)
        "/backups/new.ini").value (GROUP_REPOS, KEY_ALL)).toStringList = ["alice", "bob"] ∧
    ((openSettings (pBackup stdEnv "/backups/new.ini" ⟨true, false, false⟩ stockedWorld)
        "/backups/new.ini").value (GROUP_REPOS, KEY_DISABLED)).toStringList = ["bob"] ∧
    (((openSettings (pBackup stdEnv "/backups/new.ini" ⟨true, false, false⟩ stockedWorld)
        "/backups/new.ini").value (GROUP_REPOS, KEY_DISABLED)).toStringList).Sublist
      (((openSettings (pBackup stdEnv "/backups/new.ini" ⟨true, false, false⟩ stockedWorld)
        "/backups/new.ini").value (GROUP_REPOS, KEY_ALL)).toStringList) :=
  ⟨by decide, by decide,
    (disabled_repos_sublist_of_all stdEnv "/backups/new.ini" ⟨true, false, false⟩ stockedWorld
      (by decide) (by decide)).2.1⟩

/-! ## Claims on the status and on the search stage -/

theorem setStatusSeq_notifications (ts : List Status) (w : World) :
    notifications (setStatusSeq ts w) = notifications w + changeCount w.mStatus ts := by
  induction ts generalizing w with
  | nil => simp [setStatusSeq, changeCount]
  | cons t ts ih =>
    have hstep : setStatusSeq (t :: ts) w = setStatusSeq ts (setStatus t w) := rfl
    have hn : notifications (setStatus t w) =
        notifications w + (if w.mStatus ≠ t then 1 else 0) := by
      rw [setStatus_eq]
      unfold notifications
      by_cases h : w.mStatus = t <;> simp [h, List.countP_append]
    have hs : (setStatus t w).mStatus = t := by rw [setStatus_eq]
    rw [hstep, ih (setStatus t w), hn, hs]
    simp only [changeCount]
    omega

/-- C11: `setStatus t` leaves the engine in status `t`; when `t` is the current status
the state is unchanged and nothing is emitted, otherwise exactly one `statusChanged` is
appended to the signal log and only the status and the log change.  Over a sequence of
calls the number of notifications grows by the number of calls that change the status. -/
theorem setStatus_notifies_on_change (t : Status) (ts : List Status) (w : World) :
    (setStatus t w).mStatus = t ∧
      (if w.mStatus = t then setStatus t w = w
        else setStatus t w =
          { w with mStatus := t, signals := w.signals ++ [(Signal.statusChanged, t)] }) ∧
      notifications (setStatus t w) = notifications w + (if w.mStatus = t then 0 else 1) ∧
      notifications (setStatusSeq ts w) = notifications w + changeCount w.mStatus ts := by
  refine ⟨by rw [setStatus_eq], ?_, ?_, setStatusSeq_notifications ts w⟩
  · by_cases h : w.mStatus = t
    · rw [if_pos h]
      subst h
      simp [setStatus]
    · rw [if_neg h]
      simp [setStatus, emit, h]
  · rw [setStatus_eq]
    unfold notifications
    by_cases h : w.mStatus = t <;> simp [h, List.countP_append]

/-- C13: `pAddPackage` never changes the status or the search list.  An identifier whose
name is not searched, or whose repository neither carries the managed prefix nor is the
pseudo-repository of installed packages, changes nothing.  A searched name from a managed
repository only adds the identifier in front of the candidates of its name; a searched
name from the pseudo-repository only maps the name to the version of the identifier.
Assumed: the name of the pseudo-repository does not carry the managed prefix. -/
theorem pAddPackage_effect (d : Env V) (packageId : String) (w : World)
    (hpre : startsWith OrnConst.installed d.repoNamePrefix = false) :
    (pAddPackage d packageId w).mStatus = w.mStatus ∧
      (pAddPackage d packageId w).mNamesToSearch = w.mNamesToSearch ∧
      (d.packageName packageId ∉ w.mNamesToSearch ∨
          (startsWith (d.packageRepo packageId) d.repoNamePrefix = false ∧
            d.packageRepo packageId ≠ OrnConst.installed) →
        pAddPackage d packageId w = w) ∧
      (d.packageName packageId ∈ w.mNamesToSearch →
        startsWith (d.packageRepo packageId) d.repoNamePrefix = true →
        pAddPackage d packageId w =
            { w with mPackagesToInstall :=
              (d.packageName packageId, packageId) :: w.mPackagesToInstall } ∧
          valuesOf (pAddPackage d packageId w).mPackagesToInstall (d.packageName packageId) =
            packageId :: valuesOf w.mPackagesToInstall (d.packageName packageId)) ∧
      (d.packageName packageId ∈ w.mNamesToSearch →
        d.packageRepo packageId = OrnConst.installed →
        pAddPackage d packageId w =
            { w with mInstalled :=
              hashInsert (d.packageName packageId) (d.packageVersion packageId) w.mInstalled } ∧
          hashFind (d.packageName packageId) (pAddPackage d packageId w).mInstalled =
            some (d.packageVersion packageId) ∧
          ∀ n, n ≠ d.packageName packageId →
            hashFind n (pAddPackage d packageId w).mInstalled = hashFind n w.mInstalled) := by
  obtain ⟨p, i, hframe⟩ := pAddPackage_frame d packageId w
  refine ⟨by rw [hframe], by rw [hframe], ?_, ?_, ?_⟩
  · rintro (h | ⟨h1, h2⟩)
    · have hc : w.mNamesToSearch.contains (d.packageName packageId) = false := by
        simpa using h
      unfold pAddPackage
      simp only [hc, Bool.false_eq_true, if_false]
    · unfold pAddPackage
      simp only [h1, Bool.false_eq_true, if_false, h2]
      split <;> rfl
  · intro hn hp
    have hc : w.mNamesToSearch.contains (d.packageName packageId) = true := by
      simpa using hn
    have heq : pAddPackage d packageId w =
        { w with mPackagesToInstall :=
          (d.packageName packageId, packageId) :: w.mPackagesToInstall } := by
      unfold pAddPackage
      simp only [hc, if_true, hp, multiInsert]
    refine ⟨heq, ?_⟩
    rw [heq]
    simp [valuesOf, List.filter_cons]
  · intro hn hr
    have hc : w.mNamesToSearch.contains (d.packageName packageId) = true := by
      simpa using hn
    have heq : pAddPackage d packageId w =
        { w with mInstalled :=
          hashInsert (d.packageName packageId) (d.packageVersion packageId) w.mInstalled } := by
      unfold pAddPackage
      simp only [hc, if_true, hr, hpre, Bool.false_eq_true, if_false]
    refine ⟨heq, ?_, ?_⟩
    · rw [heq]
      exact hashFind_hashInsert_same _ _ _
    · intro n hne
      rw [heq]
      exact hashFind_hashInsert_ne _ _ _ _ (Ne.symm hne)

/-- C13 on a candidate from a managed repository, found while `app` is searched: it is
put in front of the candidates, and nothing else changes. -/
theorem pAddPackage_effect_witness :
    pAddPackage stdEnv "app;2.0;noarch;openrepos-x"
        (searched stdEnv ["app"] ["app;1.0;noarch;openrepos-x"]) =
      { searched stdEnv ["app"] ["app;1.0;noarch;openrepos-x"] with
        mPackagesToInstall := [("app", "app;2.0;noarch;openrepos-x"),
          ("app", "app;1.0;noarch;openrepos-x")] } ∧
    pAddPackage stdEnv "app;2.0;noarch;openrepos-x"
        (searched stdEnv ["app"] ["app;1.0;noarch;openrepos-x"]) =
      { searched stdEnv ["app"] ["app;1.0;noarch;openrepos-x"] with
        mPackagesToInstall := (stdEnv.packageName "app;2.0;noarch;openrepos-x",
            "app;2.0;noarch;openrepos-x") ::
          (searched stdEnv ["app"] ["app;1.0;noarch;openrepos-x"]).mPackagesToInstall } :=
  ⟨by decide,
    ((pAddPackage_effect stdEnv "app;2.0;noarch;openrepos-x"
      (searched stdEnv ["app"] ["app;1.0;noarch;openrepos-x"]) (by decide)).2.2.2.1
      (by decide) (by decide)).1⟩

/-- C17: after `pSearchPackages` and any sequence of `Package` events, every name that
has candidates is a searched name; no key of the candidates is missing from the search
list. -/
theorem candidate_keys_are_searched (d : Env V) (found : List String) (w : World) :
    (∀ k ∈ uniqueKeys (addPackages d found (pSearchPackages w)).mPackagesToInstall,
        k ∈ (addPackages d found (pSearchPackages w)).mNamesToSearch) ∧
      (uniqueKeys (addPackages d found (pSearchPackages w)).mPackagesToInstall).filter
        (fun k => !(addPackages d found (pSearchPackages w)).mNamesToSearch.contains k) = [] ∧
      (addPackages d found (pSearchPackages w)).mNamesToSearch = w.mNamesToSearch := by
  have hkeys : ∀ k ∈ uniqueKeys (addPackages d found (pSearchPackages w)).mPackagesToInstall,
      k ∈ (addPackages d found (pSearchPackages w)).mNamesToSearch := by
    intro k hk
    obtain ⟨v, hv⟩ := (mem_uniqueKeys _ _).mp hk
    rw [addPackages_names]
    rcases addPackages_candidates d found (pSearchPackages w) (k, v) hv with h | h
    · simp [pSearchPackages, openTransaction] at h
    · exact h.2.2.1
  refine ⟨hkeys, ?_, ?_⟩
  · rw [List.filter_eq_nil_iff]
    intro k hk
    simpa using hkeys k hk
  · rw [addPackages_names]
    simp [pSearchPackages, openTransaction, setStatus_eq]

/-! ## The order of the candidates -/

theorem pAddPackage_candidates_list (d : Env V) (a : String) (w : World) :
    (pAddPackage d a w).mPackagesToInstall =
      (if isCandidate d w.mNamesToSearch a then [(d.packageName a, a)] else []) ++
        w.mPackagesToInstall := by
  unfold pAddPackage isCandidate
  simp only
  cases hc : w.mNamesToSearch.contains (d.packageName a) with
  | false => simp
  | true =>
    cases hp : startsWith (d.packageRepo a) d.repoNamePrefix with
    | true => simp [multiInsert]
    | false =>
      simp only [if_true, Bool.false_eq_true, if_false, Bool.and_false, List.nil_append]
      split <;> rfl

/-- The values of a name after the search stage: its candidates from the last found to
the first found, in front of the values that were there before. -/
theorem valuesOf_addPackages (d : Env V) (found : List String) (w : World) (pname : String) :
    valuesOf (addPackages d found w).mPackagesToInstall pname =
      (candidatesOf d w.mNamesToSearch found pname).reverse ++
        valuesOf w.mPackagesToInstall pname := by
  induction found using List.reverseRecOn with
  | nil => simp [addPackages, candidatesOf]
  | append_singleton l a ih =>
    rw [addPackages_append, pAddPackage_candidates_list, addPackages_names]
    unfold candidatesOf at ih ⊢
    rw [List.filter_append, List.reverse_append]
    unfold valuesOf at ih ⊢
    rw [List.filter_append, List.map_append, ih]
    cases hc : isCandidate d w.mNamesToSearch a with
    | false => simp [hc]
    | true =>
      by_cases hn : d.packageName a = pname
      · simp [hc, hn]
      · simp [hc, hn]

/-- When no candidate is above the default version, the inner loop keeps its initial
value: the default version and the empty identifier. -/
theorem newest_default (d : Env V) (pids : List String)
    (h : ∀ p ∈ pids, d.versionLt d.defaultVersion (versionOf d p) = false) :
    newest d pids = (d.defaultVersion, "") := by
  induction pids using List.reverseRecOn with
  | nil => rfl
  | append_singleton l a ih =>
    rw [newest_append, ih (fun p hp => h p (List.mem_append_left _ hp))]
    have := h a (by simp)
    simp only [newestStep]
    rw [if_neg (by simpa [versionOf] using this)]

/-- The inner loop ends on the first candidate, in the order of the loop, among those
that have the version it ends on. -/
theorem newest_first_of_ties (d : Env V) (ho : StrictVersionOrder d) (pids : List String)
    (hex : ∃ p ∈ pids, d.versionLt d.defaultVersion (versionOf d p) = true) :
    ∃ l1 l2, pids = l1 ++ (newest d pids).2 :: l2 ∧
      ∀ c ∈ l1, versionOf d c ≠ versionOf d (newest d pids).2 := by
  induction pids using List.reverseRecOn with
  | nil => simp at hex
  | append_singleton l a ih =>
    rw [newest_append]
    obtain ⟨hmax, _⟩ := newest_inv d ho l
    cases h : d.versionLt (newest d l).1 (versionOf d a) with
    | true =>
      have hstep : newestStep d (newest d l) a = (versionOf d a, a) := by
        simp only [newestStep]
        rw [if_pos (by simpa [versionOf] using h)]
        rfl
      rw [hstep]
      refine ⟨l, [], rfl, ?_⟩
      intro c hc heq
      have := hmax c hc
      rw [heq, h] at this
      exact absurd this (by simp)
    | false =>
      have hstep : newestStep d (newest d l) a = newest d l := by
        simp only [newestStep]
        rw [if_neg (by simpa [versionOf] using h)]
      rw [hstep]
      have hex2 : ∃ p ∈ l, d.versionLt d.defaultVersion (versionOf d p) = true := by
        by_contra hno
        have hall : ∀ p ∈ l, d.versionLt d.defaultVersion (versionOf d p) = false := by
          intro p hp
          cases hv : d.versionLt d.defaultVersion (versionOf d p) with
          | false => rfl
          | true => exact absurd ⟨p, hp, hv⟩ hno
        rw [newest_default d l hall] at h
        obtain ⟨p, hp, hlt⟩ := hex
        rcases List.mem_append.mp hp with hp | hp
        · rw [hall p hp] at hlt
          exact absurd hlt (by simp)
        · have : p = a := by simpa using hp
          subst this
          simp only at h
          rw [h] at hlt
          exact absurd hlt (by simp)
      obtain ⟨l1, l2, hl, hne⟩ := ih hex2
      refine ⟨l1, l2 ++ [a], ?_, hne⟩
      conv => lhs; rw [hl]
      simp

/-! ## Claims on the install batch -/

/-- C12: evaluation of two restores of the same snapshot on one engine.  The first run
finds `app` installed in version `2.0`; the second run, like a run on a fresh engine, is
only offered the candidate `app-1.0`.  The fresh engine requests its installation; the
engine that ran before still holds the installed version of the first run and requests
none. -/
theorem stale_installed_version_changes_batch :
    (restoreRun stdEnv "/backups/old.ini" ["app;1.0;noarch;openrepos-x"] idleWorld).map
        (fun w => w.opened) =
      some [.refreshCache, .resolve ["app"],
        .installPackages ["app;1.0;noarch;openrepos-x"]] ∧
    ((restoreRun stdEnv "/backups/old.ini" ["app;2.0;noarch;installed"] idleWorld).bind
        (fun w1 => restoreRun stdEnv "/backups/old.ini" ["app;1.0;noarch;openrepos-x"]
          w1)).map (fun w => (w.opened, w.mInstalled)) =
      some ([.refreshCache, .resolve ["app"], .refreshCache, .resolve ["app"]],
        [("app", "2.0")]) := by
  decide

/-- C15, the claim as stated fails: two candidates of `app` with the same version `1.0`
are found, first the one of repository `x`, then the one of repository `y`; the one
selected and installed is the one found last. -/
theorem tie_selects_last_seen :
    candidatesOf stdEnv ["app"]
        ["app;1.0;noarch;openrepos-x", "app;1.0;noarch;openrepos-y"] "app" =
      ["app;1.0;noarch;openrepos-x", "app;1.0;noarch;openrepos-y"] ∧
    versionOf stdEnv "app;1.0;noarch;openrepos-x" =
      versionOf stdEnv "app;1.0;noarch;openrepos-y" ∧
    (newest stdEnv (valuesOf (searched stdEnv ["app"]
        ["app;1.0;noarch;openrepos-x", "app;1.0;noarch;openrepos-y"]).mPackagesToInstall
        "app")).2 = "app;1.0;noarch;openrepos-y" ∧
    installIds stdEnv (searched stdEnv ["app"]
        ["app;1.0;noarch;openrepos-x", "app;1.0;noarch;openrepos-y"]) =
      ["app;1.0;noarch;openrepos-y"] := by
  decide

/-- C15, amended: after the search stage the candidate selected for a name is one of the
candidates found for it, no candidate of the name has a higher version, and no candidate
found after it has the same version: on a tie at the highest version the candidate seen
last is selected.  Assumed: the version order is strict and some candidate of the name is
above the default version. -/
theorem tie_break_is_last_seen (d : Env V) (found : List String) (w : World)
    (pname : String) (ho : StrictVersionOrder d)
    (hex : ∃ p ∈ candidatesOf d w.mNamesToSearch found pname,
      d.versionLt d.defaultVersion (versionOf d p) = true) :
    ∃ earlier later,
      candidatesOf d w.mNamesToSearch found pname =
        earlier ++ (newest d (valuesOf
          (addPackages d found (pSearchPackages w)).mPackagesToInstall pname)).2 :: later ∧
      (∀ c ∈ later, versionOf d c ≠ versionOf d (newest d (valuesOf
          (addPackages d found (pSearchPackages w)).mPackagesToInstall pname)).2) ∧
      (∀ c ∈ candidatesOf d w.mNamesToSearch found pname,
        d.versionLt (versionOf d (newest d (valuesOf
          (addPackages d found (pSearchPackages w)).mPackagesToInstall pname)).2)
          (versionOf d c) = false) := by
  have hvals : valuesOf (addPackages d found (pSearchPackages w)).mPackagesToInstall pname =
      (candidatesOf d w.mNamesToSearch found pname).reverse := by
    rw [valuesOf_addPackages]
    simp [pSearchPackages, openTransaction, setStatus_eq, valuesOf]
  rw [hvals]
  have hex2 : ∃ p ∈ (candidatesOf d w.mNamesToSearch found pname).reverse,
      d.versionLt d.defaultVersion (versionOf d p) = true := by
    obtain ⟨p, hp, h⟩ := hex
    exact ⟨p, List.mem_reverse.mpr hp, h⟩
  obtain ⟨l1, l2, hl, hne⟩ := newest_first_of_ties d ho _ hex2
  obtain ⟨_, hver⟩ := newest_selected d ho _ hex2
  refine ⟨l2.reverse, l1.reverse, ?_, ?_, ?_⟩
  · have := congrArg List.reverse hl
    rw [List.reverse_reverse] at this
    exact this.trans (by simp)
  · intro c hc
    exact hne c (List.mem_reverse.mp hc)
  · intro c hc
    rw [← hver]
    exact (newest_inv d ho _).1 c (List.mem_reverse.mpr hc)

/-- C15 amended, on three candidates of `app`, the last two tied at version `2.0`. -/
theorem tie_break_is_last_seen_witness :
    (newest stdEnv (valuesOf (addPackages stdEnv
        ["app;2.0;noarch;openrepos-x", "app;1.0;noarch;openrepos-y",
          "app;2.0;noarch;openrepos-z"]
        (pSearchPackages { emptyWorld with mNamesToSearch := ["app"] })).mPackagesToInstall
        "app")).2 = "app;2.0;noarch;openrepos-z" ∧
    ∃ earlier later,
      candidatesOf stdEnv ({ emptyWorld with mNamesToSearch := ["app"] } : World).mNamesToSearch
          ["app;2.0;noarch;openrepos-x", "app;1.0;noarch;openrepos-y",
            "app;2.0;noarch;openrepos-z"] "app" =
        earlier ++ (newest stdEnv (valuesOf (addPackages stdEnv
          ["app;2.0;noarch;openrepos-x", "app;1.0;noarch;openrepos-y",
            "app;2.0;noarch;openrepos-z"]
          (pSearchPackages { emptyWorld with mNamesToSearch := ["app"] })).mPackagesToInstall
          "app")).2 :: later ∧
      (∀ c ∈ later, versionOf stdEnv c ≠ versionOf stdEnv (newest stdEnv (valuesOf
          (addPackages stdEnv
            ["app;2.0;noarch;openrepos-x", "app;1.0;noarch;openrepos-y",
              "app;2.0;noarch;openrepos-z"]
            (pSearchPackages { emptyWorld with mNamesToSearch := ["app"] })).mPackagesToInstall
          "app")).2) :=
  ⟨by decide,
    (tie_break_is_last_seen stdEnv
      ["app;2.0;noarch;openrepos-x", "app;1.0;noarch;openrepos-y",
        "app;2.0;noarch;openrepos-z"]
      { emptyWorld with mNamesToSearch := ["app"] } "app" stdEnv_strict
      ⟨"app;2.0;noarch;openrepos-x", by decide, by decide⟩).imp
      (fun _ h => h.imp (fun _ h2 => ⟨h2.1, h2.2.1⟩))⟩

/-- When the version order is strict and the candidates are stored under their names
with versions above the default one, every identifier of the install batch is a recorded
candidate and the batch holds at most one identifier of each package name. -/
theorem batch_holds_recorded_ids (d : Env V) (w : World)
    (ho : StrictVersionOrder d) (hwf : KeysAreNames d w) (hpos : AboveDefault d w) :
    (∀ id ∈ installIds d w, (d.packageName id, id) ∈ w.mPackagesToInstall) ∧
      (∀ pname, ((installIds d w).filter
        (fun id => decide (d.packageName id = pname))).length ≤ 1) ∧
      (installIds d w).length ≤ (uniqueKeys w.mPackagesToInstall).length := by
  have hrec : ∀ id ∈ installIds d w, (d.packageName id, id) ∈ w.mPackagesToInstall := by
    intro id hid
    rw [installIds_eq] at hid
    obtain ⟨k, hk, hmem⟩ := List.mem_flatMap.mp hid
    have h1 := (mem_valuesOf _ _ _).mp (contribution_subset d ho w hpos k hk id hmem)
    have h2 := hwf (k, id) h1
    simp only at h2
    rw [← h2]
    exact h1
  have hlen : ∀ k, (contribution d w k).length ≤ 1 := by
    intro k
    unfold contribution
    split <;> simp
  refine ⟨hrec, ?_, ?_⟩
  · intro pname
    by_cases hp : pname ∈ uniqueKeys w.mPackagesToInstall
    · rw [installIds_filter d ho w hwf hpos pname hp]
      exact hlen pname
    · have : (installIds d w).filter (fun id => decide (d.packageName id = pname)) = [] := by
        rw [List.filter_eq_nil_iff]
        intro id hid
        simp only [decide_eq_true_eq]
        intro heq
        apply hp
        rw [← heq]
        exact (mem_uniqueKeys _ _).mpr ⟨id, hrec id hid⟩
      rw [this]
      simp
  · rw [installIds_eq]
    generalize uniqueKeys w.mPackagesToInstall = keys
    induction keys with
    | nil => simp
    | cons k ks ih =>
      rw [List.flatMap_cons, List.length_append, List.length_cons]
      have := hlen k
      omega

/-! ## The registry -/

theorem append_mid_of_startsWith (s p : String) (h : startsWith s p = true) :
    p ++ mid s p.length = s := by
  apply String.ext
  rw [String.data_append]
  unfold startsWith at h
  unfold mid
  show p.data ++ List.drop p.data.length s.data = s.data
  generalize p.data = pl at h
  generalize s.data = sl at h
  induction pl generalizing sl with
  | nil => simp
  | cons c cs ih =>
    cases sl with
    | nil => simp [List.isPrefixOf] at h
    | cons x xs =>
      simp only [List.isPrefixOf, Bool.and_eq_true, beq_iff_eq] at h
      simp [h.1, ih xs h.2]

theorem string_append_cancel (p a b : String) (h : p ++ a = p ++ b) : a = b := by
  apply String.ext
  have := congrArg String.data h
  rw [String.data_append, String.data_append] at this
  exact List.append_cancel_left this

theorem restoreRepos_repos (d : Env V) (disabled authors : List String) (w : World) :
    (authors.foldl (restoreRepo d disabled) w).repos = registerAll d disabled authors w.repos := by
  induction authors using List.reverseRecOn with
  | nil => rfl
  | append_singleton l a ih =>
    unfold registerAll at ih ⊢
    rw [List.foldl_append, List.foldl_append]
    simp only [List.foldl_cons, List.foldl_nil]
    rw [← ih]
    rfl

theorem restoreRepos_ssuCalls (d : Env V) (disabled authors : List String) (w : World) :
    (authors.foldl (restoreRepo d disabled) w).ssuCalls =
      w.ssuCalls ++ authors.map (fun a => (d.repoNamePrefix ++ a, d.repoUrl a)) := by
  induction authors using List.reverseRecOn with
  | nil => simp
  | append_singleton l a ih =>
    rw [List.foldl_append]
    simp only [List.foldl_cons, List.foldl_nil, restoreRepo]
    rw [ih]
    simp

/-- The registry after the file-read stage. -/
theorem pRestore_repos (d : Env V) (filePath : String) (w : World) :
    (pRestore d filePath w).repos =
      registerAll d ((openSettings w filePath).value (GROUP_REPOS, KEY_DISABLED)).toStringList
        ((openSettings w filePath).value (GROUP_REPOS, KEY_ALL)).toStringList w.repos := by
  unfold pRestore
  simp only [setStatus_eq]
  split
  · rw [restoreRepos_repos]
    split <;> rfl
  · rename_i h
    have h2 : ((openSettings w filePath).value (GROUP_REPOS, KEY_ALL)).toStringList = [] := by
      simpa using h
    rw [h2]
    split <;> rfl

/-- The calls of `addRepo` after the file-read stage. -/
theorem pRestore_ssuCalls (d : Env V) (filePath : String) (w : World) :
    (pRestore d filePath w).ssuCalls =
      w.ssuCalls ++ (((openSettings w filePath).value (GROUP_REPOS, KEY_ALL)).toStringList).map
        (fun a => (d.repoNamePrefix ++ a, d.repoUrl a)) := by
  unfold pRestore
  simp only [setStatus_eq]
  split
  · rw [restoreRepos_ssuCalls]
    split <;> rfl
  · rename_i h
    have h2 : ((openSettings w filePath).value (GROUP_REPOS, KEY_ALL)).toStringList = [] := by
      simpa using h
    rw [h2]
    split <;> simp

theorem registerAll_append (d : Env V) (disabled l : List String) (a : String)
    (r : List (String × Bool)) :
    registerAll d disabled (l ++ [a]) r =
      hashInsert (d.repoNamePrefix ++ a) (!disabled.contains a) (registerAll d disabled l r) := by
  simp [registerAll, List.foldl_append]

theorem registerAll_find (d : Env V) (disabled authors : List String)
    (r : List (String × Bool)) (a : String) (ha : a ∈ authors) :
    hashFind (d.repoNamePrefix ++ a) (registerAll d disabled authors r) =
      some (!disabled.contains a) := by
  induction authors using List.reverseRecOn with
  | nil => simp at ha
  | append_singleton l b ih =>
    rw [registerAll_append]
    by_cases hb : b = a
    · subst hb
      exact hashFind_hashInsert_same _ _ _
    · have hne : d.repoNamePrefix ++ b ≠ d.repoNamePrefix ++ a :=
        fun h => hb (string_append_cancel _ _ _ h)
      rw [hashFind_hashInsert_ne _ _ _ _ hne]
      apply ih
      rcases List.mem_append.mp ha with h | h
      · exact h
      · have : a = b := by simpa using h
        exact absurd this.symm hb

theorem registerAll_find_other (d : Env V) (disabled authors : List String)
    (r : List (String × Bool)) (k : String)
    (hk : ∀ a ∈ authors, k ≠ d.repoNamePrefix ++ a) :
    hashFind k (registerAll d disabled authors r) = hashFind k r := by
  induction authors using List.reverseRecOn with
  | nil => rfl
  | append_singleton l b ih =>
    rw [registerAll_append,
      hashFind_hashInsert_ne _ _ _ _ (Ne.symm (hk b (by simp)))]
    exact ih (fun a ha => hk a (List.mem_append_left _ ha))

/-- C14: after `pRestore` the registry maps the alias of every author of `repos.all` to
an enabled flag that says that the author is not in `repos.disabled`; `addRepo` has been
called once per entry of `repos.all`, in the order of the list, with the alias and the
URL of the author; registry entries under other aliases are what they were. -/
theorem pRestore_registers_repos (d : Env V) (filePath : String) (w : World) :
    (∀ a ∈ ((openSettings w filePath).value (GROUP_REPOS, KEY_ALL)).toStringList,
        hashFind (d.repoNamePrefix ++ a) (pRestore d filePath w).repos =
          some (!(((openSettings w filePath).value
            (GROUP_REPOS, KEY_DISABLED)).toStringList).contains a)) ∧
      (pRestore d filePath w).ssuCalls =
        w.ssuCalls ++
          (((openSettings w filePath).value (GROUP_REPOS, KEY_ALL)).toStringList).map
            (fun a => (d.repoNamePrefix ++ a, d.repoUrl a)) ∧
      (∀ k, (∀ a ∈ ((openSettings w filePath).value (GROUP_REPOS, KEY_ALL)).toStringList,
          k ≠ d.repoNamePrefix ++ a) →
        hashFind k (pRestore d filePath w).repos = hashFind k w.repos) := by
  refine ⟨?_, pRestore_ssuCalls d filePath w, ?_⟩
  · intro a ha
    rw [pRestore_repos]
    exact registerAll_find d _ _ _ a ha
  · intro k hk
    rw [pRestore_repos]
    exact registerAll_find_other d _ _ _ k hk

/-! ## The round trip of the registry -/

theorem hashInsert_of_not_mem {β : Type} (k : String) (v : β) (r : List (String × β))
    (h : k ∉ r.map Prod.fst) : hashInsert k v r = r ++ [(k, v)] := by
  induction r with
  | nil => rfl
  | cons e m ih =>
    simp only [List.map_cons, List.mem_cons, not_or] at h
    unfold hashInsert
    rw [if_neg (fun he => h.1 he.symm), ih h.2]
    rfl

theorem hashInsert_of_mem {β : Type} (k : String) (v : β) (r : List (String × β))
    (hnd : (r.map Prod.fst).Nodup) (h : (k, v) ∈ r) : hashInsert k v r = r := by
  induction r with
  | nil => simp at h
  | cons e m ih =>
    simp only [List.map_cons, List.nodup_cons] at hnd
    unfold hashInsert
    by_cases he : e.1 = k
    · rw [if_pos he]
      rcases List.mem_cons.mp h with h | h
      · rw [h]
      · exfalso
        apply hnd.1
        rw [he]
        exact List.mem_map.mpr ⟨(k, v), h, rfl⟩
    · rw [if_neg he]
      rcases List.mem_cons.mp h with h | h
      · rw [← h] at he
        exact absurd rfl he
      · rw [ih hnd.2 h]

/-- Inserting entries with distinct new keys, one after the other, appends them. -/
theorem foldl_hashInsert_new (l r : List (String × Bool))
    (hnd : ((r ++ l).map Prod.fst).Nodup) :
    l.foldl (fun acc e => hashInsert e.1 e.2 acc) r = r ++ l := by
  induction l generalizing r with
  | nil => simp
  | cons e l ih =>
    have hnd2 : ((r ++ [e] ++ l).map Prod.fst).Nodup := by
      simpa [List.append_assoc] using hnd
    have hnot : e.1 ∉ r.map Prod.fst := by
      intro hmem
      rw [List.map_append, List.nodup_append] at hnd
      exact hnd.2.2 hmem (by simp)
    rw [List.foldl_cons, hashInsert_of_not_mem _ _ _ hnot, ih _ hnd2]
    simp

/-- Inserting entries that the registry holds leaves the registry as it is. -/
theorem foldl_hashInsert_old (l r : List (String × Bool))
    (hnd : (r.map Prod.fst).Nodup) (hsub : ∀ e ∈ l, e ∈ r) :
    l.foldl (fun acc e => hashInsert e.1 e.2 acc) r = r := by
  induction l with
  | nil => rfl
  | cons e l ih =>
    rw [List.foldl_cons, hashInsert_of_mem _ _ _ hnd (hsub e (by simp))]
    exact ih (fun x hx => hsub x (List.mem_cons_of_mem _ hx))

/-- What the restore inserts for the author of a registry entry is the entry itself, when
the aliases are distinct and carry the managed prefix. -/
theorem restored_entry_eq (d : Env V) (r : List (String × Bool))
    (hnd : (r.map Prod.fst).Nodup)
    (hpre : ∀ e ∈ r, startsWith e.1 d.repoNamePrefix = true) (e : String × Bool) (he : e ∈ r) :
    (d.repoNamePrefix ++ authorOf d e,
      !(((r.filter (fun it => !it.2)).map (authorOf d)).contains (authorOf d e))) = e := by
  have halias : ∀ x ∈ r, d.repoNamePrefix ++ authorOf d x = x.1 :=
    fun x hx => append_mid_of_startsWith _ _ (hpre x hx)
  have hmem : ∀ l : List String, l.contains (authorOf d e) = true ↔ authorOf d e ∈ l := by
    intro l
    simp
  have hflag : ((r.filter (fun it => !it.2)).map (authorOf d)).contains (authorOf d e) = !e.2 := by
    cases h2 : e.2 with
    | false =>
      rw [Bool.not_false, hmem]
      exact List.mem_map.mpr ⟨e, List.mem_filter.mpr ⟨he, by simp [h2]⟩, rfl⟩
    | true =>
      rw [Bool.not_true, Bool.eq_false_iff]
      intro hc
      rw [hmem] at hc
      obtain ⟨x, hx, hax⟩ := List.mem_map.mp hc
      obtain ⟨hxr, hx2⟩ := List.mem_filter.mp hx
      have hkey : x.1 = e.1 := by
        rw [← halias x hxr, ← halias e he, hax]
      have := List.inj_on_of_nodup_map hnd hxr he hkey
      rw [this, h2] at hx2
      simp at hx2
  rw [hflag, halias e he]
  simp

theorem registerAll_captured (d : Env V) (r r0 : List (String × Bool))
    (hnd : (r.map Prod.fst).Nodup)
    (hpre : ∀ e ∈ r, startsWith e.1 d.repoNamePrefix = true) :
    registerAll d ((r.filter (fun it => !it.2)).map (authorOf d)) (r.map (authorOf d)) r0 =
      r.foldl (fun acc e => hashInsert e.1 e.2 acc) r0 := by
  unfold registerAll
  rw [List.foldl_map]
  apply List.foldl_ext
  intro acc e he
  have := restored_entry_eq d r hnd hpre e he
  have h1 := congrArg Prod.fst this
  have h2 := congrArg Prod.snd this
  simp only at h1 h2
  rw [h1, h2]

theorem captured_repos (d : Env V) (items : BackupItems) (w : World) (file0 : QSettings)
    (hitems : items.BackupRepos = true) :
    ((captured d items w file0).value (GROUP_REPOS, KEY_ALL)).toStringList =
        w.repos.map (authorOf d) ∧
      ((captured d items w file0).value (GROUP_REPOS, KEY_DISABLED)).toStringList =
        (w.repos.filter (fun it => !it.2)).map (authorOf d) := by
  unfold captured
  simp only [collectRepos_eq, hitems, if_true]
  rw [value_setValue_ne _ _ (GROUP_REPOS, KEY_ALL) _ (by decide),
    value_setValue_ne _ _ (GROUP_REPOS, KEY_DISABLED) _ (by decide)]
  constructor <;>
    cases items.BackupInstalled <;> cases items.BackupBookmarks <;>
      simp [value_setValue_same, value_setValue_ne, QVariant.toStringList,
        GROUP_REPOS, GROUP_PACKAGES, KEY_ALL, KEY_DISABLED, OrnConst.installed,
        OrnConst.bookmarks, authorOf]

theorem pBackup_repos (d : Env V) (filePath : String) (items : BackupItems) (w : World) :
    (pBackup d filePath items w).repos = w.repos := by
  rw [pBackup_eq]
  unfold syncSettings
  split <;> simp [emit, setStatus_eq]

/-- C18: for a registry with distinct aliases that all carry the managed prefix, a
capture with the repositories selected, into a directory that exists, followed by the
file-read stage of a restore yields the registry itself, both when the restore starts on
an empty registry and when it starts on the registry that was captured. -/
theorem registry_round_trip (d : Env V) (filePath : String) (items : BackupItems) (w : World)
    (hitems : items.BackupRepos = true) (hdir : d.parentDir filePath ∈ w.dirs)
    (hnd : (w.repos.map Prod.fst).Nodup)
    (hpre : ∀ e ∈ w.repos, startsWith e.1 d.repoNamePrefix = true) :
    (pRestore d filePath { pBackup d filePath items w with repos := [] }).repos = w.repos ∧
      (pRestore d filePath (pBackup d filePath items w)).repos = w.repos := by
  obtain ⟨_, hopen⟩ := pBackup_snapshot d filePath items w hdir
  obtain ⟨hall, hdis⟩ := captured_repos d items w (openSettings w filePath) hitems
  have hopen2 : openSettings { pBackup d filePath items w with repos := [] } filePath =
      captured d items w (openSettings w filePath) := hopen
  constructor
  · rw [pRestore_repos, hopen2, hall, hdis, registerAll_captured d _ _ hnd hpre]
    exact foldl_hashInsert_new _ _ (by simpa using hnd)
  · rw [pRestore_repos, hopen, hall, hdis, registerAll_captured d _ _ hnd hpre, pBackup_repos]
    exact foldl_hashInsert_old _ _ hnd (fun e he => he)

/-- C18 on a registry with the enabled `alice` and the disabled `bob`. -/
theorem registry_round_trip_witness :
    (pBackup stdEnv "/backups/new.ini" ⟨true, false, false⟩ stockedWorld).repos =
      [("openrepos-alice", true), ("openrepos-bob", false)] ∧
    (pRestore stdEnv "/backups/new.ini"
        { pBackup stdEnv "/backups/new.ini" ⟨true, false, false⟩ stockedWorld with
          repos := [] }).repos = stockedWorld.repos ∧
    (pRestore stdEnv "/backups/new.ini"
        (pBackup stdEnv "/backups/new.ini" ⟨true, false, false⟩ stockedWorld)).repos =
      stockedWorld.repos :=
  ⟨by decide,
    registry_round_trip stdEnv "/backups/new.ini" ⟨true, false, false⟩ stockedWorld
      (by decide) (by decide) (by decide) (by decide)⟩

/-! ## The empty identifier -/

theorem plainEnv_strict : StrictVersionOrder plainEnv where
  irrefl := fun a => by simp [plainEnv, stdEnv]
  trans := fun a b c hab hbc => by
    simp only [plainEnv, stdEnv, decide_eq_true_eq] at hab hbc ⊢
    exact lt_trans hab hbc

/-- When no candidate of a name is above the default version and the name has no
installed version, the round of that name appends the empty identifier, which is then in
the install batch. -/
theorem contribution_empty_id (d : Env V) (w : World) (pname : String)
    (hcand : pname ∈ uniqueKeys w.mPackagesToInstall)
    (hlow : ∀ p ∈ valuesOf w.mPackagesToInstall pname,
      d.versionLt d.defaultVersion (versionOf d p) = false)
    (hinst : hashFind pname w.mInstalled = none) :
    contribution d w pname = [""] ∧ "" ∈ installIds d w := by
  have hc : contribution d w pname = [""] := by
    simp [contribution, needsInstall, hinst, newest_default d _ hlow]
  refine ⟨hc, ?_⟩
  rw [installIds_eq]
  exact List.mem_flatMap.mpr ⟨pname, hcand, by rw [hc]; simp⟩

end OrnBackup
